import Mathlib

/-!
Shallow embedding of the KiFisher BOM/assembly pipeline (`kifisher.py`).

The Python source is embedded as executable Lean definitions:

* Python strings are Lean `String`s; the handful of `str` methods the source
  uses (`in`, `split`, `replace`, `lstrip`, `strip`, `lower`) are re-implemented
  on `List Char` so that every definition is structurally recursive and hence
  kernel-reducible (`decide`/`rfl` work on concrete inputs).
* Python `int` is `Int`.
* Python `float` values are modelled as exact rationals `ℚ`; the position files
  carry plain decimal numerals, which `pyFloat?` parses exactly.  Parse failure
  (`ValueError`) and list indexing failure (`IndexError`) are modelled with
  `Option`/`Except`.
* `exit()` is modelled as an `Except` error value carrying the printed
  diagnostic lines and the process exit status (Python `exit()` with no
  argument exits with status 0).
-/

namespace KiFisher

/-! ## Python string primitives -/

/-- Rebuild a `String` from its character list. -/
def charsStr (l : List Char) : String := ⟨l⟩

/-- Does `pat` occur at the head of `l`? -/
def startsWithChars : List Char → List Char → Bool
  | [], _ => true
  | _ :: _, [] => false
  | a :: as, b :: bs => a == b && startsWithChars as bs

/-- Does `pat` occur anywhere in `l`?  Models Python `pat in s`. -/
def containsChars (pat : List Char) : List Char → Bool
  | [] => startsWithChars pat []
  | c :: rest => startsWithChars pat (c :: rest) || containsChars pat rest

/-- Python `pat in s` on strings. -/
def hasSubstr (s pat : String) : Bool := containsChars pat.data s.data

/-- Fuel-driven splitter: split `l` on every occurrence of `sep`
(the fuel is an upper bound on the number of characters consumed, so
`fuel = l.length` always suffices; it keeps the recursion structural). -/
def splitCharsAux (sep : List Char) : Nat → List Char → List (List Char)
  | _, [] => [[]]
  | 0, l => [l]
  | fuel + 1, c :: rest =>
    if sep ≠ [] ∧ startsWithChars sep (c :: rest) = true then
      [] :: splitCharsAux sep fuel ((c :: rest).drop sep.length)
    else
      match splitCharsAux sep fuel rest with
      | [] => [[c]]
      | h :: t => (c :: h) :: t

/-- Python `s.split(sep)` for a non-empty separator. -/
def pySplit (s sep : String) : List String :=
  (splitCharsAux sep.data s.data.length s.data).map charsStr

/-- Fuel-driven replacement of every occurrence of `old` by `new`. -/
def replaceCharsAux (old new : List Char) : Nat → List Char → List Char
  | _, [] => []
  | 0, l => l
  | fuel + 1, c :: rest =>
    if old ≠ [] ∧ startsWithChars old (c :: rest) = true then
      new ++ replaceCharsAux old new fuel ((c :: rest).drop old.length)
    else
      c :: replaceCharsAux old new fuel rest

/-- Python `s.replace(old, new)` for a non-empty `old`. -/
def pyReplace (s old new : String) : String :=
  charsStr (replaceCharsAux old.data new.data s.data.length s.data)

/-- Python `s.lstrip(c)`: drop every leading occurrence of the character `c`. -/
def pyLstrip (s : String) (c : Char) : String :=
  charsStr (s.data.dropWhile (fun a => a == c))

/-- Python `s.strip(c)`: drop every leading and trailing occurrence of `c`. -/
def pyStripChar (s : String) (c : Char) : String :=
  charsStr (((s.data.dropWhile (fun a => a == c)).reverse.dropWhile (fun a => a == c)).reverse)

/-- Python `s.lower()` (ASCII). -/
def pyLower (s : String) : String := charsStr (s.data.map Char.toLower)

/-- Join a list of strings with a separator, as Python `sep.join(parts)`. -/
def joinWith (sep : String) : List String → String
  | [] => ""
  | [x] => x
  | x :: xs => x ++ sep ++ joinWith sep xs

/-- Accumulate a decimal numeral; `none` when a non-digit appears
(models the `ValueError` of Python `int`/`float` on bad input). -/
def digitsToNat : List Char → Nat → Option Nat
  | [], acc => some acc
  | c :: rest, acc =>
    if c.isDigit then digitsToNat rest (acc * 10 + (c.toNat - 48)) else none

/-- Python `int(s)` on the digit tokens the pipeline feeds it
(an optional sign followed by decimal digits); `none` models `ValueError`. -/
def pyInt? (s : String) : Option Int :=
  match s.data with
  | [] => none
  | '-' :: rest =>
    if rest = [] then none else (digitsToNat rest 0).map (fun n => -(n : Int))
  | l => (digitsToNat l 0).map (fun n => (n : Int))

/-- Python `float(s)` on plain decimal numerals, as an exact rational;
`none` models `ValueError`. -/
def pyFloat? (s : String) : Option ℚ :=
  match s.data with
  | [] => none
  | l =>
    let sign : ℚ := match l with
      | '-' :: _ => -1
      | _ => 1
    let body : List Char := match l with
      | '-' :: r => r
      | '+' :: r => r
      | r => r
    if body = [] then none else
    match splitCharsAux ['.'] body.length body with
    | [ip] => (digitsToNat ip 0).map (fun n => sign * (n : ℚ))
    | [ip, fp] =>
      if ip = [] ∧ fp = [] then none else
      match (if ip = [] then some 0 else digitsToNat ip 0),
            (if fp = [] then some 0 else digitsToNat fp 0) with
      | some i, some f =>
        some (sign * ((i : ℚ) + (f : ℚ) / (10 : ℚ) ^ fp.length))
      | _, _ => none
    | _ => none

/-- Floor of a rational as an integer. -/
def floorQ (q : ℚ) : Int := q.num.fdiv (q.den : Int)

/-- Round to the nearest integer, ties to even (the rounding used by
Python `format` when printing at fixed precision; binary-float artifacts
at exact ties are abstracted away by the rational model). -/
def roundHalfEvenQ (q : ℚ) : Int :=
  let f := floorQ q
  if q - (f : ℚ) < 1/2 then f
  else if (1/2 : ℚ) < q - (f : ℚ) then f + 1
  else if f % 2 = 0 then f else f + 1

/-- Two-digit zero-padded rendering of a value below 100. -/
def pad2 (n : Nat) : String := if n < 10 then "0" ++ toString n else toString n

/-- Python `'{:.2f}'.format(x)`: fixed two-decimal rendering. -/
def fmt2 (q : ℚ) : String :=
  let n := roundHalfEvenQ (q * 100)
  let m := n.natAbs
  (if n < 0 then "-" else "") ++ toString (m / 100) ++ "." ++ pad2 (m % 100)

/-! ## Data model

`Comp` mirrors the Python `Comp()` class (kifisher.py lines 35-69): one
record per part instance, every attribute defaulting to the empty string.
The placement attributes `xloc`/`yloc`/`rot`/`side` start out as the empty
string and are only ever assigned by the position merge; they are modelled
as `Option` values (`none` = the empty-string default), with the numeric
ones carried as exact rationals. -/

structure Comp where
  ref : String := ""
  value : String := ""
  description : String := ""
  footprint : String := ""
  fp_lib : String := ""
  symbol : String := ""
  sym_lib : String := ""
  datasheet : String := ""
  mf_name : String := ""
  mf_pn : String := ""
  s1_name : String := ""
  s1_pn : String := ""
  thsmt : String := ""
  xsize_mils : String := ""
  ysize_mils : String := ""
  xloc : Option ℚ := none
  yloc : Option ℚ := none
  rot : Option String := none
  side : Option String := none
deriving DecidableEq

/-- Mirror of the Python `BOMline()` class (kifisher.py lines 71-87). -/
structure BOMline where
  refs : String := ""
  qty : Int := 0
  footprint : String := ""
  fp_lib : String := ""
  symbol : String := ""
  sym_lib : String := ""
  datasheet : String := ""
  description : String := ""
  mf_pn : String := ""
  mf_name : String := ""
  s1_pn : String := ""
  s1_name : String := ""
  thsmt : String := ""
deriving DecidableEq

/-! ## BomAggregator (create_bill_of_materials, lines 1059-1092) -/

/-- The aggregation guard of line 1064:
`'th' in c.thsmt or 'smt' in c.thsmt or 'dnp' in c.thsmt`.
Note these are Python substring tests, not equality tests. -/
def isPlacedSub (c : Comp) : Bool :=
  hasSubstr c.thsmt "th" || hasSubstr c.thsmt "smt" || hasSubstr c.thsmt "dnp"

/-- Seed a fresh BOM line from a component (lines 1078-1091). -/
def newBomLine (c : Comp) : BOMline :=
  { refs := c.ref, qty := 1, footprint := c.footprint, fp_lib := c.fp_lib,
    symbol := c.symbol, sym_lib := c.sym_lib, datasheet := c.datasheet,
    description := c.description, mf_name := c.mf_name, mf_pn := c.mf_pn,
    s1_name := c.s1_name, s1_pn := c.s1_pn, thsmt := c.thsmt }

/-- One iteration of the aggregation loop (lines 1059-1092): a component to
be placed either increments every existing line with the same symbol
(appending its designator) or starts a new line. -/
def addComp (bom : List BOMline) (c : Comp) : List BOMline :=
  if isPlacedSub c then
    if bom.any (fun l => l.symbol == c.symbol) then
      bom.map (fun l =>
        if l.symbol == c.symbol then
          { l with qty := l.qty + 1, refs := l.refs ++ " " ++ c.ref }
        else l)
    else bom ++ [newBomLine c]
  else bom

/-- The whole aggregation pass over the component sequence. -/
def createBom (comps : List Comp) : List BOMline := comps.foldl addComp []

/-- Formalizes the claim-side mount-type test: `thsmt` is *exactly* one of
`th`, `smt`, `dnp` (the spec's enumeration, in contrast to the source's
substring test `isPlacedSub`). -/
def mountTypeExact (c : Comp) : Bool :=
  c.thsmt == "th" || c.thsmt == "smt" || c.thsmt == "dnp"

/-- Number of aggregated (substring-placed) components carrying a symbol. -/
def placedWithSymbol (comps : List Comp) (s : String) : Nat :=
  (comps.filter (fun c => isPlacedSub c && c.symbol == s)).length

/-! ## RefCompactor (create_bill_of_materials, lines 1094-1162)

The source works on the space-joined designator string of a BOM line:
if `'UA1'` occurs anywhere in it the fixed label `UA1-UF1` is emitted;
otherwise the leading alphabetic prefix is stripped, the numeric suffixes
are sorted, and maximal runs of consecutive numbers are rendered as
`a`/`a-b` tokens.  The run-scanning loop (lines 1122-1152) is embedded as
`compactLoop`, producing the closed runs as `(start, stop)` pairs which
`renderRun` prints exactly as the source does. -/

/-- Ascending sort of the parsed numeric suffixes
(`refs_str.sort(key=int)`, line 1108, followed by `int` conversion). -/
def sortInts (l : List Int) : List Int := List.insertionSort (· ≤ ·) l

/-- The run-scanning loop of lines 1118-1152.  `first`/`last` are
`refs_str_ints[0]` and `refs_str_ints[-1]`; a gap (`num - prev ≠ 1`,
checked only past the first value) closes the open run `(seqStart, prev)`,
and reaching the last *value* closes the then-open run at `num`. -/
def compactLoop (first last : Int) : List Int → Int → Int → List (Int × Int) → List (Int × Int)
  | [], _, _, out => out
  | num :: rest, prev, seqStart, out =>
    if num ≠ first ∧ num - prev ≠ 1 then
      if num = last then
        compactLoop first last rest num num (out ++ [(seqStart, prev)] ++ [(num, num)])
      else
        compactLoop first last rest num num (out ++ [(seqStart, prev)])
    else
      if num = last then
        compactLoop first last rest num seqStart (out ++ [(seqStart, num)])
      else
        compactLoop first last rest num seqStart out

/-- Run the scanning loop on a numeric suffix list, as lines 1111-1152. -/
def compactRuns : List Int → List (Int × Int)
  | [] => []
  | x :: xs => compactLoop x (xs.getLastD x) (x :: xs) x x []

/-- Render one closed run, re-attaching the alphabetic prefix
(lines 1129-1134 and 1154-1157): a length-one run prints bare, a longer
run prints as `start-stop`. -/
def renderRun (lead : String) (p : Int × Int) : String :=
  if p.1 = p.2 then lead ++ toString p.1
  else lead ++ toString p.1 ++ "-" ++ toString p.2

/-- The general compaction algorithm of lines 1100-1160 (the non-override
branch), on the space-joined designator string.  `none` models the crash
paths: the prefix regex `([a-z]+)([0-9]+)` failing to match (the source
would then read a stale/unbound variable), a non-numeric suffix making
`int(...)` raise, or an empty designator list. -/
def generalCompact (refs_str : String) : Option String :=
  let lead := charsStr (refs_str.data.takeWhile Char.isAlpha)
  if lead.data = [] then none
  else
    match (refs_str.data.drop lead.data.length).head? with
    | none => none
    | some c =>
      if c.isDigit then
        match (pySplit (pyReplace refs_str lead "") " ").mapM pyInt? with
        | none => none
        | some nums =>
          match nums with
          | [] => none
          | _ :: _ =>
            some (joinWith " " ((compactRuns (sortInts nums)).map (renderRun lead)))
      else none

/-- The whole per-line reference display computation (lines 1094-1162):
the hard-coded `'UA1' in b.refs` substring test selects the fixed label,
otherwise the general algorithm runs. -/
def refsToDisplay (refs_str : String) : Option String :=
  if hasSubstr refs_str "UA1" then some "UA1-UF1"
  else generalCompact refs_str

/-- Display string for a designator list (the list is joined with single
spaces exactly as the aggregation loop builds `b.refs`). -/
def displayOf (refs : List String) : Option String :=
  refsToDisplay (joinWith " " refs)

/-- Formalizes the claim's expansion of one compacted run: the token
`lead ++ a ++ "-" ++ b` stands for the designators `lead ++ n` for every
`a ≤ n ≤ b`, and a bare token stands for itself. -/
def expandRun (p : Int × Int) : List Int :=
  (List.range (p.2 - p.1 + 1).toNat).map (fun i : Nat => p.1 + (i : Int))

/-- Formalizes the claim's expansion rule on a rendered token string:
strip the shared prefix, split on `-`, and enumerate the numeric range;
tokens not of that shape are kept verbatim. -/
def expandTokenStr (lead tok : String) : List String :=
  if startsWithChars lead.data tok.data then
    let rest := charsStr (tok.data.drop lead.data.length)
    match pySplit rest "-" with
    | [d1, d2] =>
      match pyInt? d1, pyInt? d2 with
      | some a, some b => (expandRun (a, b)).map (fun n => lead ++ toString n)
      | _, _ => [tok]
    | _ => [tok]
  else [tok]

/-- Formalizes the claim's expansion of a whole compacted display string:
split on spaces and expand each range token. -/
def expandDisplay (lead s : String) : List String :=
  (pySplit s " ").flatMap (expandTokenStr lead)

/-! ## BomWriter outputs (lines 1213-1260) -/

/-- One data row of the Seeed purchasing CSV (line 1221). -/
def seeedRow (b : BOMline) : String :=
  b.refs ++ "," ++ b.mf_pn ++ "," ++ toString b.qty

/-- The Seeed purchasing CSV (lines 1217-1221): header plus one row per
BOM line with positive quantity. -/
def seeedRows (bom : List BOMline) : List String :=
  "Location,MPN/Seeed SKU,Quantity"
    :: (bom.filter (fun b => decide (0 < b.qty))).map seeedRow

/-- One data row of a per-vendor CSV (line 1244). -/
def vendorCsvRow (b : BOMline) : String :=
  b.refs ++ "," ++ toString b.qty ++ "," ++ toString (b.qty * 3) ++ ","
    ++ b.description ++ "," ++ b.s1_pn

/-- One data row of a per-vendor Markdown table (line 1245). -/
def vendorMdRow (b : BOMline) : String :=
  "|" ++ b.refs ++ "|" ++ toString b.qty ++ "|" ++ b.description ++ "|" ++ b.s1_pn ++ "|"

/-- The per-vendor CSV contents (lines 1231-1245): the header appears on
the first loop iteration, so an empty BOM produces no lines at all; data
rows are the lines with positive quantity and a matching supplier. -/
def vendorCsvLines (v : String) (bom : List BOMline) : List String :=
  match bom with
  | [] => []
  | _ :: _ =>
    ("Ref,Qty,Qty3,Description," ++ v ++ " PN")
      :: (bom.filter (fun b => decide (0 < b.qty) && b.s1_name == v)).map vendorCsvRow

/-- The per-vendor Markdown table fragment (lines 1236-1247), including the
trailing blank-line entry appended after the loop. -/
def vendorMdLines (v : String) (bom : List BOMline) : List String :=
  (match bom with
   | [] => []
   | _ :: _ =>
     ("|Ref|Qty|Description|" ++ v ++ " PN|")
       :: "|---|---|-----------|------|"
       :: (bom.filter (fun b => decide (0 < b.qty) && b.s1_name == v)).map vendorMdRow)
    ++ ["\n"]

/-! ## Assembly summary (lines 1268-1276) -/

/-- The summary loop of lines 1268-1273: over lines with positive quantity,
accumulate (`place_count`, `part_count`) = (sum of quantities, line count). -/
def assySummaryCounts (bom : List BOMline) : Int × Int :=
  bom.foldl (fun acc b => if 0 < b.qty then (acc.1 + b.qty, acc.2 + 1) else acc) (0, 0)

/-- The two emitted summary lines (1275-1276), exactly as the source
formats them: the `part_count` value is printed under the
`Individual Placements per board` label and the `place_count` value under
the `Number of Parts` label. -/
def assySummaryLines (bom : List BOMline) : List String :=
  ["Individual Placements per board: " ++ toString (assySummaryCounts bom).2 ++ "\n",
   "Number of Parts: " ++ toString (assySummaryCounts bom).1 ++ "\n"]

/-! ## AssemblyWriter XYRS rows (lines 1392-1415) -/

/-- Rendering of a stored position number (the source stores
`str(float(...)*1000)`; the rational carries the exact value). -/
def ratStr (q : ℚ) : String := toString q

/-- One XYRS manifest row (lines 1398-1415): tab-prefixed columns, each
empty ("falsy") optional field contributing a bare tab, except the final
MPN column whose empty case writes two tabs (line 1414). -/
def xyrsRow (x : Comp) : String :=
  x.ref
  ++ (match x.xloc with | some q => "\t" ++ ratStr q | none => "\t")
  ++ (match x.yloc with | some q => "\t" ++ ratStr q | none => "\t")
  ++ (match x.rot with | some r => "\t" ++ r | none => "\t")
  ++ (match x.side with | some s => "\t" ++ s | none => "\t")
  ++ (if x.thsmt == "th" then "\t2" else if x.thsmt == "smt" then "\t1" else "\t")
  ++ (if x.xsize_mils == "" then "\t" else "\t" ++ x.xsize_mils)
  ++ (if x.ysize_mils == "" then "\t" else "\t" ++ x.ysize_mils)
  ++ (if x.value == "" then "\t" else "\t" ++ x.value)
  ++ (if x.footprint == "" then "\t" else "\t" ++ x.footprint)
  ++ "\t1"
  ++ (if x.mf_pn == "" then "\t\t" else "\t" ++ x.mf_pn)

/-- The emitted manifest rows (line 1396-1397): only `th`/`smt` parts. -/
def xyrsRows (comps : List Comp) : List String :=
  (comps.filter (fun x => x.thsmt == "th" || x.thsmt == "smt")).map xyrsRow

/-! ## NetlistParser scanner (create_component_list_from_netlist, 876-995) -/

/-- Mutable scanner state: the `comp_flag` section flag, the `first_flag`
comma flag, and the accumulated JSON text lines. -/
structure NetScan where
  comp_flag : Bool := false
  first_flag : Bool := true
  net_json : List String := []
deriving DecidableEq

/-- Fatal Python exceptions of the scanner: `splitline[1]` on a one-element
split raises `IndexError`. -/
inductive ScanErr
  | indexError
deriving DecidableEq

/-- The `(ref ` branch, lines 903-909. -/
def applyRefLine (st : NetScan) (line : String) : NetScan :=
  let l1 := pyLstrip (pyReplace (pyReplace (pyReplace line ")" "") "\n" "") "(comp (ref " "") ' '
  { st with
    net_json := st.net_json ++ (if st.first_flag then [] else [",\n"])
      ++ ["     \x7b\n        \"ref\":\"" ++ l1 ++ "\","],
    first_flag := false }

/-- The `(value ` branch, lines 910-914. -/
def applyValueLine (st : NetScan) (line : String) : NetScan :=
  let l1 := pyReplace (pyReplace (pyReplace line ")" "") "\n" "") "\"" ""
  let l2 := pyLstrip (pyReplace l1 "(value " "") ' '
  { st with net_json := st.net_json ++ ["        \"value\":\"" ++ l2 ++ "\","] }

/-- Cleaned value of a `(footprint ` line (lines 915-916). -/
def footprintClean (line : String) : String :=
  pyLstrip (pyReplace (pyReplace (pyReplace line ")" "") "\n" "") "(footprint " "") ' '

/-- The `(footprint ` branch, lines 915-919: `split(':')` then indexing
elements 0 and 1; a colon-less value leaves a one-element split and the
`splitline[1]` access raises `IndexError`. -/
def applyFootprintLine (st : NetScan) (line : String) : Except ScanErr NetScan :=
  match pySplit (footprintClean line) ":" with
  | p0 :: p1 :: _ =>
    .ok { st with net_json := st.net_json ++
      ["        \"footprint_lib\":\"" ++ p0 ++ "\",",
       "        \"footprint\":\"" ++ p1 ++ "\","] }
  | _ => .error .indexError

/-- The `(datasheet ` branch, lines 920-922. -/
def applyDatasheetLine (st : NetScan) (line : String) : NetScan :=
  let l1 := pyLstrip
    (pyReplace (pyReplace (pyReplace (pyReplace line ")" "") "\"" "") "\n" "") "(datasheet " "") ' '
  { st with net_json := st.net_json ++ ["        \"datasheet\":\"" ++ l1 ++ "\","] }

/-- Cleaned value of a `(field (name ` line (lines 923-925). -/
def fieldClean (line : String) : String :=
  pyStripChar
    (pyReplace (pyLstrip (pyReplace (pyReplace (pyReplace line ") " ":") "\n" "") "(field (name " "") ' ') "\"" "") ')'

/-- The `(field (name ` branch, lines 923-927; like the footprint branch it
indexes `splitline[1]` and raises `IndexError` when no colon survives. -/
def applyFieldLine (st : NetScan) (line : String) : Except ScanErr NetScan :=
  match pySplit (fieldClean line) ":" with
  | p0 :: p1 :: _ =>
    .ok { st with net_json := st.net_json ++
      ["        \"" ++ pyLower p0 ++ "\":\"" ++ p1 ++ "\","] }
  | _ => .error .indexError

/-- Cleaned value of a `(libsource (lib ` line (lines 928-930). -/
def libsourceClean (line : String) : String :=
  pyStripChar
    (pyReplace (pyLstrip (pyReplace (pyReplace (pyReplace line ") " ":") "\n" "") "(libsource (lib " "") ' ') "(part " "") ')'

/-- The `(libsource (lib ` branch, lines 928-934, closing the JSON record. -/
def applyLibsourceLine (st : NetScan) (line : String) : Except ScanErr NetScan :=
  match pySplit (libsourceClean line) ":" with
  | p0 :: p1 :: _ =>
    .ok { st with net_json := st.net_json ++
      ["        \"symbol_lib\":\"" ++ p0 ++ "\",",
       "        \"symbol\":\"" ++ p1 ++ "\"",
       "      \x7d"] }
  | _ => .error .indexError

/-- Process one netlist line (lines 896-934): update the section flag from
the `(components`/`(libparts` markers, then, inside the section, run every
matching field branch in source order. -/
def processNetLine (st : NetScan) (line : String) : Except ScanErr NetScan :=
  let st1 := if hasSubstr line "(components" then { st with comp_flag := true } else st
  let st2 := if hasSubstr line "(libparts" then { st1 with comp_flag := false } else st1
  if st2.comp_flag then do
    let sa := if hasSubstr line "(ref " then applyRefLine st2 line else st2
    let sb := if hasSubstr line "(value " then applyValueLine sa line else sa
    let sc ← if hasSubstr line "(footprint " then applyFootprintLine sb line else .ok sb
    let sd := if hasSubstr line "(datasheet " then applyDatasheetLine sc line else sc
    let se ← if hasSubstr line "(field (name " then applyFieldLine sd line else .ok sd
    let sf ← if hasSubstr line "(libsource (lib " then applyLibsourceLine se line else .ok se
    return sf
  else
    return st2

/-- The initial scanner state (lines 882-893). -/
def scanInit : NetScan := {}

/-- Scan a whole netlist (the loop of lines 895-934); the first uncaught
exception aborts the scan. -/
def scanNetlist (lines : List String) : Except ScanErr NetScan :=
  lines.foldlM processNetLine scanInit

/-- A fatal abort: the printed diagnostic lines and the process exit
status. -/
structure FatalErr where
  messages : List String
  status : Nat
deriving DecidableEq

/-- The missing-netlist abort of lines 886-889: two diagnostic lines are
printed and `exit()` is called with no argument, which terminates the
Python process with status 0. -/
def netfileMissingErr : FatalErr :=
  { messages := ["\nERROR! Netfile doesn\x27t exist. Did you export it from the schematic?",
                 "--> Leaving the program without creating bill of materials.\n"],
    status := 0 }

/-- Entry of `create_component_list_from_netlist` (lines 876-995): the
existence check of line 886 runs before anything is written; a present
netlist is scanned line by line. -/
def createComponentListFromNetlist (netfile : Option (List String)) :
    Except FatalErr (Except ScanErr NetScan) :=
  match netfile with
  | none => .error netfileMissingErr
  | some lines => .ok (scanNetlist lines)

/-! ## PositionMerger (create_assembly_files, lines 1364-1382) -/

/-- Whitespace tokens of a position line (line 1374-1375):
strip the newline, split on single spaces, drop empty tokens. -/
def toksOf (line : String) : List String :=
  (pySplit (pyStripChar line '\n') " ").filter (fun t => !(t == ""))

/-- Parse the payload of a position line (lines 1379-1382): tokens 3-5 as
numbers and token 6 verbatim; `none` models the `IndexError` of a missing
token and the `ValueError` of `float` on a non-numeric token. -/
def posLineData? (line : String) : Option (ℚ × ℚ × ℚ × String) :=
  match (toksOf line).get? 3, (toksOf line).get? 4,
        (toksOf line).get? 5, (toksOf line).get? 6 with
  | some t3, some t4, some t5, some t6 =>
    match pyFloat? t3, pyFloat? t4, pyFloat? t5 with
    | some x, some y, some r => some (x, y, r, t6)
    | _, _, _ => none
  | _, _, _, _ => none

/-- The positional overwrite of lines 1379-1382: x and y scaled by 1000,
rotation re-formatted at two decimals, side verbatim. -/
def posApply (d : ℚ × ℚ × ℚ × String) (c : Comp) : Comp :=
  { c with xloc := some (d.1 * 1000), yloc := some (d.2.1 * 1000),
           rot := some (fmt2 d.2.2.1), side := some d.2.2.2 }

/-- Process one position line against the whole component list
(lines 1372-1382).  A line containing `#` anywhere is skipped (line 1372
tests `'#' not in line`).  Otherwise every component is compared against
token 0 — raising `IndexError` (`none`) on an empty token list — and a
matching component is overwritten with the parsed payload; a matching
line whose payload fails to parse crashes the merge (`none`). -/
def applyPosLine (comps : List Comp) (line : String) : Option (List Comp) :=
  if hasSubstr line "#" then some comps else
  comps.mapM (fun c =>
    match (toksOf line).head? with
    | none => none
    | some t0 =>
      if c.ref == t0 then (posLineData? line).map (fun d => posApply d c)
      else some c)

/-- Fold the merge over a line sequence. -/
def mergePosLines (comps : List Comp) (lines : List String) : Option (List Comp) :=
  lines.foldlM applyPosLine comps

/-- The whole position merge (lines 1365-1382): the top file's lines are
processed first, then the bottom file's. -/
def mergePositions (top bottom : List String) (comps : List Comp) : Option (List Comp) :=
  mergePosLines comps (top ++ bottom)

/-- Does a line update the component with designator `ref`: it carries no
`#`, and its first token equals `ref`. -/
def matchesLine (ref line : String) : Bool :=
  !(hasSubstr line "#") && decide ((toksOf line).head? = some ref)

/-- A position line whose payload parses: tokens 3-6 present, 3-5 numeric. -/
def wellFormedLine (line : String) : Bool :=
  (posLineData? line).isSome

/-- A line the merge survives against designators `refs`: a comment
(`#` anywhere), or a non-empty token list that is well formed whenever its
first token is one of the designators. -/
def lineSafe (refs : List String) (line : String) : Bool :=
  hasSubstr line "#" ||
    (!(toksOf line).isEmpty &&
      (!(decide ((toksOf line).headD "" ∈ refs)) || wellFormedLine line))

/-- The effect of one matching line on one component: overwrite with the
parsed payload (the merge itself crashes on a parse failure, so the
fallback arm is never reached on safe inputs). -/
def posUpdate (line : String) (c : Comp) : Comp :=
  match posLineData? line with
  | some d => posApply d c
  | none => c

/-- The effect of one line on one component. -/
def stepPos (line : String) (c : Comp) : Comp :=
  if matchesLine c.ref line then posUpdate line c else c

/-- The cumulative effect of a line sequence on one component. -/
def applyAllPos (lines : List String) (c : Comp) : Comp :=
  lines.foldl (fun c line => stepPos line c) c

/-- Equality of every non-positional field of two components. -/
def samePartData (a b : Comp) : Prop :=
  a.ref = b.ref ∧ a.value = b.value ∧ a.description = b.description ∧
  a.footprint = b.footprint ∧ a.fp_lib = b.fp_lib ∧ a.symbol = b.symbol ∧
  a.sym_lib = b.sym_lib ∧ a.datasheet = b.datasheet ∧ a.mf_name = b.mf_name ∧
  a.mf_pn = b.mf_pn ∧ a.s1_name = b.s1_name ∧ a.s1_pn = b.s1_pn ∧
  a.thsmt = b.thsmt ∧ a.xsize_mils = b.xsize_mils ∧ a.ysize_mils = b.ysize_mils

/-! ## Concrete fixtures used by the witnesses and counterexamples -/

/-- An SMT part with no manufacturer part number. -/
def demoNoMpn : Comp := { ref := "R1", thsmt := "smt", value := "10k" }

/-- An SMT part with a manufacturer part number. -/
def demoWithMpn : Comp := { ref := "R1", thsmt := "smt", value := "10k", mf_pn := "RC0402-103" }

/-- A component whose mount-type is the string `both`, which is not one of
`th`/`smt`/`dnp` but contains `th` as a substring. -/
def demoBoth : Comp := { ref := "U1", symbol := "MODULE", thsmt := "both" }

/-- A BOM line with two merged designators. -/
def demoLineQty2 : BOMline := { refs := "R1 R2", qty := 2, symbol := "RES" }

/-- A netlist fragment whose footprint value has no `lib:name` colon. -/
def demoMalformedNetlist : List String :=
  ["(components", "    (comp (ref C1)", "      (footprint Wickerlib)"]

/-- A position line matching `R1` that carries a `#` in a trailing token
(so it does not *begin* with `#`). -/
def demoHashLine : String := "R1 F B 1.250 2.500 90.00 top #caution"

/-- A bare component named `R1`. -/
def demoComp : Comp := { ref := "R1" }

/-- A top-side position line for `R1`. -/
def demoTopLine : String := "R1 RES R_0402 1.250 2.500 0.00 top"

/-- A bottom-side position line for `R1`. -/
def demoBottomLine : String := "R1 RES R_0402 3.500 4.500 90.00 bottom"

/-! ## Run expansion lemmas -/

theorem expandRun_refl (a : Int) : expandRun (a, a) = [a] := by
  show (List.range ((a, a).2 - (a, a).1 + 1).toNat).map (fun i : Nat => a + (i : Int)) = [a]
  have h1 : ((a, a).2 - (a, a).1 + 1).toNat = 1 := by omega
  rw [h1]
  have h2 : List.range 1 = [0] := rfl
  rw [h2]
  simp

theorem expandRun_snoc (a b : Int) (h : a ≤ b + 1) :
    expandRun (a, b + 1) = expandRun (a, b) ++ [b + 1] := by
  show (List.range ((a, b + 1).2 - (a, b + 1).1 + 1).toNat).map (fun i : Nat => a + (i : Int))
      = (List.range ((a, b).2 - (a, b).1 + 1).toNat).map (fun i : Nat => a + (i : Int)) ++ [b + 1]
  have h1 : ((a, b + 1).2 - (a, b + 1).1 + 1).toNat = ((a, b).2 - (a, b).1 + 1).toNat + 1 := by
    simp only; omega
  rw [h1, List.range_succ, List.map_append, List.map_cons, List.map_nil]
  have h2 : a + ((((a, b).2 - (a, b).1 + 1).toNat : Nat) : Int) = b + 1 := by
    simp only; omega
  rw [h2]

/-- The last element of a non-empty list through `getLastD`, for any
fallback value. -/
theorem getLast?_cons_eq_getLastD {α : Type} (l : List α) :
    ∀ (a d : α), (a :: l).getLast? = some ((a :: l).getLastD d) := by
  induction l with
  | nil => intro a d; rfl
  | cons b bs ih =>
    intro a d
    rw [List.getLast?_cons_cons, ih b a]
    rfl

/-! ## The compaction loop invariant -/

theorem compactLoop_inv (last : Int) (todo : List Int) :
    ∀ (done : List Int) (first prev seqStart : Int) (out : List (Int × Int)),
      todo ≠ [] →
      (done ++ todo).Pairwise (· < ·) →
      done.head? = some first →
      done.getLast? = some prev →
      (done ++ todo).getLast? = some last →
      seqStart ≤ prev →
      out.flatMap expandRun ++ expandRun (seqStart, prev) = done →
      (compactLoop first last todo prev seqStart out).flatMap expandRun = done ++ todo := by
  induction todo with
  | nil => intro done first prev seqStart out hne; exact absurd rfl hne
  | cons num rest ih =>
    intro done first prev seqStart out _ hpw hhead hlast hfull hle hout
    have hprev_mem : prev ∈ done := List.mem_of_mem_getLast? (Option.mem_def.mpr hlast)
    have hfirst_mem : first ∈ done := by
      cases done with
      | nil => simp at hhead
      | cons d ds =>
        simp only [List.head?_cons, Option.some.injEq] at hhead
        exact hhead ▸ List.mem_cons_self _ _
    have hcross : ∀ x ∈ done, ∀ y ∈ num :: rest, x < y := (List.pairwise_append.mp hpw).2.2
    have hprev_num : prev < num := hcross prev hprev_mem num (List.mem_cons_self _ _)
    have hfirst_num : first < num := hcross first hfirst_mem num (List.mem_cons_self _ _)
    have hnum_ne_first : num ≠ first := by omega
    have htodo_pw : (num :: rest).Pairwise (· < ·) := (List.pairwise_append.mp hpw).2.1
    have hnum_rest : ∀ y ∈ rest, num < y := (List.pairwise_cons.mp htodo_pw).1
    cases rest with
    | nil =>
      have hlast_eq : num = last := by
        have h1 : (done ++ [num]).getLast? = some num := List.getLast?_concat done
        rw [hfull] at h1
        injection h1 with h1
        exact h1.symm
      by_cases hgap : num - prev ≠ 1
      · rw [compactLoop, if_pos ⟨hnum_ne_first, hgap⟩, if_pos hlast_eq, compactLoop]
        rw [List.flatMap_append, List.flatMap_append]
        simp only [List.flatMap_cons, List.flatMap_nil, List.append_nil]
        rw [hout, expandRun_refl]
      · push_neg at hgap
        have hnum_eq : num = prev + 1 := by omega
        rw [compactLoop, if_neg (by intro hc; exact hc.2 hgap), if_pos hlast_eq, compactLoop]
        rw [List.flatMap_append]
        simp only [List.flatMap_cons, List.flatMap_nil, List.append_nil]
        rw [hnum_eq, expandRun_snoc seqStart prev (by omega), ← List.append_assoc, hout]
    | cons r rs =>
      have hlast_rest : (r :: rs).getLast? = some last := by
        have h1 : (done ++ num :: r :: rs).getLast? = (num :: r :: rs).getLast? := by
          rw [List.getLast?_append]
          cases h2 : (num :: r :: rs).getLast? with
          | none => rw [getLast?_cons_eq_getLastD (r :: rs) num num] at h2; exact absurd h2 (by simp)
          | some z => rfl
        rw [h1, List.getLast?_cons_cons] at hfull
        exact hfull
      have hlast_mem : last ∈ r :: rs := List.mem_of_mem_getLast? (Option.mem_def.mpr hlast_rest)
      have hnum_last : num < last := hnum_rest last hlast_mem
      have hnum_ne_last : num ≠ last := by omega
      have hassoc : done ++ num :: r :: rs = (done ++ [num]) ++ r :: rs := by
        rw [List.append_assoc]; rfl
      have hpw2 : ((done ++ [num]) ++ r :: rs).Pairwise (· < ·) := by rw [← hassoc]; exact hpw
      have hhead2 : (done ++ [num]).head? = some first := by
        rw [List.head?_append, hhead]; rfl
      have hlast2 : (done ++ [num]).getLast? = some num := List.getLast?_concat done
      have hfull2 : ((done ++ [num]) ++ r :: rs).getLast? = some last := by
        rw [← hassoc]; exact hfull
      by_cases hgap : num - prev ≠ 1
      · rw [compactLoop, if_pos ⟨hnum_ne_first, hgap⟩, if_neg hnum_ne_last]
        have hout2 : (out ++ [(seqStart, prev)]).flatMap expandRun ++ expandRun (num, num)
            = done ++ [num] := by
          rw [List.flatMap_append]
          simp only [List.flatMap_cons, List.flatMap_nil, List.append_nil]
          rw [hout, expandRun_refl]
        have hrec := ih (done ++ [num]) first num num (out ++ [(seqStart, prev)])
          (by simp) hpw2 hhead2 hlast2 hfull2 le_rfl hout2
        rw [hrec, hassoc]
      · push_neg at hgap
        have hnum_eq : num = prev + 1 := by omega
        rw [compactLoop, if_neg (by intro hc; exact hc.2 hgap), if_neg hnum_ne_last]
        have hout2 : out.flatMap expandRun ++ expandRun (seqStart, num) = done ++ [num] := by
          rw [hnum_eq, expandRun_snoc seqStart prev (by omega), ← List.append_assoc, hout]
        have hrec := ih (done ++ [num]) first num seqStart out
          (by simp) hpw2 hhead2 hlast2 hfull2 (by omega) hout2
        rw [hrec, hassoc]

/-- The whole run scan, expanded, reproduces any strictly sorted non-empty
numeric suffix list. -/
theorem compactRuns_roundtrip_sorted (l : List Int)
    (hs : l.Pairwise (· < ·)) (hne : l ≠ []) :
    (compactRuns l).flatMap expandRun = l := by
  cases l with
  | nil => exact absurd rfl hne
  | cons x xs =>
    cases xs with
    | nil =>
      rw [compactRuns, compactLoop, if_neg (by intro h; exact h.1 rfl),
        if_pos (by rfl), compactLoop]
      simp [expandRun_refl]
    | cons y ys =>
      have hx_rest : ∀ z ∈ y :: ys, x < z := (List.pairwise_cons.mp hs).1
      have hlast_some : (y :: ys).getLast? = some ((y :: ys).getLastD x) :=
        getLast?_cons_eq_getLastD ys y x
      have hlast_mem : (y :: ys).getLastD x ∈ y :: ys :=
        List.mem_of_mem_getLast? (Option.mem_def.mpr hlast_some)
      have hx_last : x < (y :: ys).getLastD x := hx_rest _ hlast_mem
      rw [compactRuns, compactLoop, if_neg (by intro h; exact h.1 rfl),
        if_neg (by omega)]
      have := compactLoop_inv ((y :: ys).getLastD x) (y :: ys) [x] x x x []
        (by simp) (by simpa using hs) rfl rfl
        (by
          have h1 : ([x] ++ y :: ys).getLast? = (y :: ys).getLast? := by
            rw [List.getLast?_append, hlast_some]; rfl
          rw [h1, hlast_some])
        le_rfl
        (by simp [expandRun_refl])
      simpa using this

/-! ## Decimal numeral facts: `toString` on `Nat` round-trips through
`digitsToNat`/`pyInt?`, and its characters are decimal digits -/

theorem digitChar_isDigit : ∀ k, k < 10 → (Nat.digitChar k).isDigit = true := by decide

theorem digitChar_not_alpha : ∀ k, k < 10 → (Nat.digitChar k).isAlpha = false := by decide

theorem digitChar_ne_space : ∀ k, k < 10 → Nat.digitChar k ≠ ' ' := by decide

theorem digitChar_ne_dash : ∀ k, k < 10 → Nat.digitChar k ≠ '-' := by decide

theorem digitChar_val : ∀ k, k < 10 → (Nat.digitChar k).toNat - 48 = k := by decide

/-- Every character `Nat.toDigitsCore` produces beyond `ds` is a digit
character of a value below the base 10. -/
theorem toDigitsCore_mem : ∀ (fuel n : Nat) (ds : List Char) (c : Char),
    c ∈ Nat.toDigitsCore 10 fuel n ds → c ∈ ds ∨ ∃ k, k < 10 ∧ c = Nat.digitChar k := by
  intro fuel
  induction fuel with
  | zero => intro n ds c h; exact Or.inl h
  | succ f ih =>
    intro n ds c h
    simp only [Nat.toDigitsCore] at h
    by_cases h0 : n / 10 = 0
    · rw [if_pos h0] at h
      rcases List.mem_cons.mp h with h1 | h2
      · exact Or.inr ⟨n % 10, by omega, h1⟩
      · exact Or.inl h2
    · rw [if_neg h0] at h
      rcases ih (n / 10) (Nat.digitChar (n % 10) :: ds) c h with h1 | h2
      · rcases List.mem_cons.mp h1 with h3 | h4
        · exact Or.inr ⟨n % 10, by omega, h3⟩
        · exact Or.inl h4
      · exact Or.inr h2

/-- Every character of the decimal rendering of a `Nat` is a digit
character. -/
theorem toString_nat_mem (n : Nat) (c : Char) (h : c ∈ (toString n).data) :
    ∃ k, k < 10 ∧ c = Nat.digitChar k := by
  have h2 : c ∈ Nat.toDigitsCore 10 (n + 1) n [] := h
  rcases toDigitsCore_mem (n + 1) n [] c h2 with h1 | h1
  · exact absurd h1 (List.not_mem_nil c)
  · exact h1

theorem toDigitsCore_ne_nil : ∀ (fuel n : Nat) (ds : List Char),
    fuel ≠ 0 ∨ ds ≠ [] → Nat.toDigitsCore 10 fuel n ds ≠ [] := by
  intro fuel
  induction fuel with
  | zero =>
    intro n ds h
    rcases h with h | h
    · exact absurd rfl h
    · simpa [Nat.toDigitsCore] using h
  | succ f ih =>
    intro n ds _
    simp only [Nat.toDigitsCore]
    by_cases h0 : n / 10 = 0
    · rw [if_pos h0]; exact List.cons_ne_nil _ _
    · rw [if_neg h0]
      exact ih (n / 10) (Nat.digitChar (n % 10) :: ds) (Or.inr (List.cons_ne_nil _ _))

/-- The decimal rendering of a `Nat` is never the empty string. -/
theorem toString_nat_ne_nil (n : Nat) : (toString n).data ≠ [] :=
  toDigitsCore_ne_nil (n + 1) n [] (Or.inl (Nat.succ_ne_zero n))

/-- Parsing what `Nat.toDigitsCore` printed continues the accumulator
with the printed value. -/
theorem digitsToNat_toDigitsCore : ∀ (n : Nat), ∀ (fuel : Nat), n < fuel → ∀ (ds : List Char),
    digitsToNat (Nat.toDigitsCore 10 fuel n ds) 0 = digitsToNat ds n := by
  intro n
  induction n using Nat.strong_induction_on with
  | _ n ih =>
    intro fuel hfuel ds
    cases fuel with
    | zero => omega
    | succ f =>
      simp only [Nat.toDigitsCore]
      by_cases h0 : n / 10 = 0
      · rw [if_pos h0, digitsToNat, if_pos (digitChar_isDigit (n % 10) (by omega))]
        rw [digitChar_val (n % 10) (by omega)]
        congr 1
        omega
      · rw [if_neg h0]
        rw [ih (n / 10) (by omega) f (by omega) (Nat.digitChar (n % 10) :: ds)]
        rw [digitsToNat, if_pos (digitChar_isDigit (n % 10) (by omega))]
        rw [digitChar_val (n % 10) (by omega)]
        congr 1
        omega

/-- `digitsToNat` inverts `toString` on `Nat`. -/
theorem digitsToNat_toString (n : Nat) : digitsToNat (toString n).data 0 = some n := by
  have h : digitsToNat (Nat.toDigitsCore 10 (n + 1) n []) 0 = digitsToNat [] n :=
    digitsToNat_toDigitsCore n (n + 1) (by omega) []
  exact h

/-- `pyInt?` inverts `toString` on `Nat`: Python
`int(str(n)) == n` for the nonnegative values the pipeline produces. -/
theorem pyInt?_natToString (n : Nat) : pyInt? (toString n) = some ((n : Nat) : Int) := by
  obtain ⟨d, ds, hds⟩ := List.exists_cons_of_ne_nil (toString_nat_ne_nil n)
  obtain ⟨k, hk, hd⟩ := toString_nat_mem n d (by rw [hds]; exact List.mem_cons_self _ _)
  unfold pyInt?
  split
  · rename_i heq
    rw [hds] at heq
    exact absurd heq (List.cons_ne_nil _ _)
  · rename_i rest heq
    rw [hds] at heq
    exfalso
    apply digitChar_ne_dash k hk
    rw [← hd]
    exact (List.cons.injEq _ _ _ _ ▸ heq).1.symm ▸ rfl
  · rw [digitsToNat_toString]
    rfl

/-- `mapM pyInt?` over canonical decimal renderings recovers the values. -/
theorem mapM_pyInt_toString (l : List Nat) :
    (l.map (fun n => toString n)).mapM pyInt? = some (l.map (fun n : Nat => (n : Int))) := by
  induction l with
  | nil => rfl
  | cons n rest ih =>
    rw [List.map_cons, List.mapM_cons, pyInt?_natToString, List.map_cons, ih]
    rfl

/-! ## Structure of the pipeline's string stages on canonical
designator strings -/

theorem isAlpha_ne_space (c : Char) (h : c.isAlpha = true) : c ≠ ' ' := by
  intro he
  rw [he] at h
  exact absurd h (by decide)

theorem takeWhile_append_all (p : Char → Bool) :
    ∀ (a b : List Char), (∀ c ∈ a, p c = true) →
      (a ++ b).takeWhile p = a ++ b.takeWhile p := by
  intro a
  induction a with
  | nil => intro b _; rfl
  | cons x xs ih =>
    intro b h
    rw [List.cons_append, List.takeWhile_cons, if_pos (h x (List.mem_cons_self _ _)),
      ih b (fun c hc => h c (List.mem_cons_of_mem _ hc)), List.cons_append]

theorem startsWithChars_append_self : ∀ (a b : List Char), startsWithChars a (a ++ b) = true := by
  intro a
  induction a with
  | nil => intro b; rfl
  | cons x xs ih =>
    intro b
    rw [List.cons_append]
    simp only [startsWithChars, ih b, Bool.and_true, beq_self_eq_true]

theorem startsWithChars_cons_ne (x : Char) (xs : List Char) (c : Char) (l : List Char)
    (h : x ≠ c) : startsWithChars (x :: xs) (c :: l) = false := by
  simp only [startsWithChars, beq_eq_false_iff_ne.mpr h, Bool.false_and]

/-- `replaceCharsAux` copies a block that never starts a match of the
pattern, spending fuel one character at a time. -/
theorem replaceCharsAux_copy (old : List Char) (x : Char) (xs : List Char) (hx : old = x :: xs) :
    ∀ (block rest : List Char) (fuel : Nat),
      (block ++ rest).length ≤ fuel →
      (∀ c ∈ block, x ≠ c) →
      replaceCharsAux old [] fuel (block ++ rest)
        = block ++ replaceCharsAux old [] (fuel - block.length) rest := by
  intro block
  induction block with
  | nil => intro rest fuel _ _; simp
  | cons c bs ih =>
    intro rest fuel hlen hno
    cases fuel with
    | zero =>
      simp only [List.cons_append, List.length_cons] at hlen
      omega
    | succ f =>
      rw [List.cons_append, replaceCharsAux]
      rw [if_neg (by
        rintro ⟨-, hs⟩
        rw [hx, startsWithChars_cons_ne x xs c _ (hno c (List.mem_cons_self _ _))] at hs
        exact absurd hs (by simp))]
      rw [ih rest f
        (by simp only [List.cons_append, List.length_cons, List.length_append] at hlen ⊢; omega)
        (fun a ha => hno a (List.mem_cons_of_mem _ ha))]
      rw [List.length_cons, Nat.succ_sub_succ, List.cons_append]

/-- `replaceCharsAux` deletes one occurrence of the pattern sitting at the
head, spending one unit of fuel. -/
theorem replaceCharsAux_consume (old : List Char) (o : Char) (os : List Char)
    (hx : old = o :: os) (x : List Char) (f : Nat) :
    replaceCharsAux old [] (f + 1) (old ++ x) = replaceCharsAux old [] f x := by
  have hform : old ++ x = o :: (os ++ x) := by rw [hx]; rfl
  rw [hform, replaceCharsAux]
  rw [if_pos ⟨by rw [hx]; exact List.cons_ne_nil o os,
    by rw [← hform]; exact startsWithChars_append_self old x⟩]
  rw [List.nil_append]
  congr 1
  rw [← hform, hx, List.length_cons, ← List.length_cons o os, ← hx, List.drop_left]

/-- Replacing the alphabetic prefix by the empty string in a joined
designator string leaves exactly the joined numeral string
(the `b.refs.replace(lead, '')` of line 1104). -/
theorem replace_strip_lead (lead : String) (o : Char) (os : List Char)
    (ho : lead.data = o :: os) (halpha : ∀ c ∈ lead.data, c.isAlpha = true) :
    ∀ (l : List Nat), l ≠ [] → ∀ (fuel : Nat),
      (joinWith " " (l.map (fun n => lead ++ toString n))).data.length ≤ fuel →
      replaceCharsAux lead.data [] fuel
          (joinWith " " (l.map (fun n => lead ++ toString n))).data
        = (joinWith " " (l.map (fun n => toString n))).data := by
  have hoalpha : o.isAlpha = true := halpha o (by rw [ho]; exact List.mem_cons_self _ _)
  have hno : ∀ (n : Nat) (c : Char), c ∈ (toString n).data → o ≠ c := by
    intro n c hc he
    obtain ⟨k, hk, hck⟩ := toString_nat_mem n c hc
    rw [he, hck, digitChar_not_alpha k hk] at hoalpha
    exact absurd hoalpha (by simp)
  have hnospace : o ≠ ' ' := isAlpha_ne_space o hoalpha
  intro l
  induction l with
  | nil => intro h; exact absurd rfl h
  | cons n rest ih =>
    intro _ fuel hlen
    cases rest with
    | nil =>
      have hdata : (joinWith " " ([n].map (fun m => lead ++ toString m))).data
          = lead.data ++ (toString n).data := rfl
      rw [hdata] at hlen ⊢
      cases fuel with
      | zero =>
        rw [ho] at hlen
        simp only [List.cons_append, List.length_cons] at hlen
        omega
      | succ f =>
        rw [replaceCharsAux_consume lead.data o os ho (toString n).data f]
        have hlen2 : ((toString n).data ++ []).length ≤ f := by
          rw [ho] at hlen
          simp only [List.append_nil, List.cons_append, List.length_cons,
            List.length_append] at hlen ⊢
          omega
        have hcopy := replaceCharsAux_copy lead.data o os ho (toString n).data [] f hlen2
          (fun c hc => hno n c hc)
        simp only [List.append_nil] at hcopy
        rw [hcopy]
        show _ = (toString n).data
        rw [replaceCharsAux]
        exact List.append_nil _
    | cons m t =>
      have hdata : (joinWith " " ((n :: m :: t).map (fun x => lead ++ toString x))).data
          = lead.data ++ ((toString n).data
              ++ (' ' :: (joinWith " " ((m :: t).map (fun x => lead ++ toString x))).data)) := by
        show ((lead ++ toString n) ++ " " ++ _).data = _
        show ((lead.data ++ (toString n).data) ++ [' ']) ++ _ = _
        simp [List.append_assoc]
      rw [hdata] at hlen ⊢
      have hlead_len : lead.data.length = os.length + 1 := by rw [ho]; rfl
      cases fuel with
      | zero =>
        simp only [List.length_append] at hlen
        omega
      | succ f =>
        rw [replaceCharsAux_consume lead.data o os ho _ f]
        rw [replaceCharsAux_copy lead.data o os ho (toString n).data _ f
          (by simp only [List.length_append] at hlen ⊢; omega)
          (fun c hc => hno n c hc)]
        rw [show (' ' :: (joinWith " " ((m :: t).map (fun x => lead ++ toString x))).data)
            = [' '] ++ (joinWith " " ((m :: t).map (fun x => lead ++ toString x))).data from rfl]
        rw [replaceCharsAux_copy lead.data o os ho [' '] _ (f - (toString n).data.length)
          (by simp only [List.length_append, List.length_cons, List.length_nil] at hlen ⊢; omega)
          (by intro c hc; rw [List.mem_singleton] at hc; rw [hc]; exact hnospace)]
        rw [List.length_singleton]
        rw [ih (List.cons_ne_nil m t) (f - (toString n).data.length - 1)
          (by simp only [List.length_append, List.length_cons, List.length_nil] at hlen ⊢; omega)]
        show _ = ((toString n) ++ " " ++ joinWith " " ((m :: t).map (fun x => toString x))).data
        show _ = ((toString n).data ++ [' ']) ++ _
        simp [List.append_assoc]

/-- A separator at the head of the input opens a fresh (empty) field. -/
theorem splitCharsAux_sep_head (sep : Char) (rest : List Char) (f : Nat) :
    splitCharsAux [sep] (f + 1) (sep :: rest) = [] :: splitCharsAux [sep] f rest := by
  rw [splitCharsAux]
  rw [if_pos ⟨List.cons_ne_nil _ _, by simp [startsWithChars]⟩]
  rfl

/-- `splitCharsAux` passes a separator-free block into the current field. -/
theorem splitCharsAux_block (sep : Char) :
    ∀ (block rest : List Char) (fuel : Nat) (h : List Char) (t : List (List Char)),
      (block ++ rest).length ≤ fuel →
      (∀ c ∈ block, c ≠ sep) →
      splitCharsAux [sep] (fuel - block.length) rest = h :: t →
      splitCharsAux [sep] fuel (block ++ rest) = (block ++ h) :: t := by
  intro block
  induction block with
  | nil =>
    intro rest fuel h t _ _ hsrc
    simp only [List.length_nil, Nat.sub_zero] at hsrc
    simpa using hsrc
  | cons c bs ih =>
    intro rest fuel h t hlen hno hsrc
    cases fuel with
    | zero =>
      simp only [List.cons_append, List.length_cons] at hlen
      omega
    | succ f =>
      rw [List.cons_append, splitCharsAux]
      rw [if_neg (by
        rintro ⟨-, hs⟩
        rw [startsWithChars_cons_ne sep [] c _ (hno c (List.mem_cons_self _ _)).symm] at hs
        exact absurd hs (by simp))]
      have hsrc2 : splitCharsAux [sep] (f - bs.length) rest = h :: t := by
        rw [List.length_cons, Nat.succ_sub_succ] at hsrc
        exact hsrc
      rw [ih rest f h t
        (by simp only [List.cons_append, List.length_cons, List.length_append] at hlen ⊢; omega)
        (fun a ha => hno a (List.mem_cons_of_mem _ ha)) hsrc2]
      rfl

/-- Splitting a joined token list on the separator recovers the tokens,
when no token contains the separator. -/
theorem splitCharsAux_joinWith (sep : Char) (sepStr : String) (hsep : sepStr.data = [sep]) :
    ∀ (toks : List String), toks ≠ [] →
      (∀ tk ∈ toks, ∀ c ∈ tk.data, c ≠ sep) →
      ∀ (fuel : Nat), (joinWith sepStr toks).data.length ≤ fuel →
        splitCharsAux [sep] fuel (joinWith sepStr toks).data
          = toks.map (fun tk => tk.data) := by
  intro toks
  induction toks with
  | nil => intro h; exact absurd rfl h
  | cons tk rest ih =>
    intro _ hc fuel hlen
    cases rest with
    | nil =>
      show splitCharsAux [sep] fuel tk.data = [tk.data]
      have hlen2 : (tk.data ++ []).length ≤ fuel := by
        simp only [List.append_nil]
        exact hlen
      have hend : splitCharsAux [sep] (fuel - tk.data.length) [] = [] :: [] := by
        cases fuel - tk.data.length <;> rfl
      have hres := splitCharsAux_block sep tk.data [] fuel [] [] hlen2
        (hc tk (List.mem_cons_self _ _)) hend
      simpa using hres
    | cons tk2 rest2 =>
      have hdata : (joinWith sepStr (tk :: tk2 :: rest2)).data
          = tk.data ++ (sep :: (joinWith sepStr (tk2 :: rest2)).data) := by
        show ((tk ++ sepStr) ++ joinWith sepStr (tk2 :: rest2)).data = _
        show (tk.data ++ sepStr.data) ++ _ = _
        rw [hsep]
        simp [List.append_assoc]
      rw [hdata] at hlen ⊢
      have hlen2 : tk.data.length + 1
          + (joinWith sepStr (tk2 :: rest2)).data.length ≤ fuel := by
        simp only [List.length_append, List.length_cons] at hlen
        omega
      have hg : fuel - tk.data.length
          = ((joinWith sepStr (tk2 :: rest2)).data.length
              + (fuel - tk.data.length - 1 - (joinWith sepStr (tk2 :: rest2)).data.length)) + 1 := by
        omega
      have hrec : splitCharsAux [sep]
            ((joinWith sepStr (tk2 :: rest2)).data.length
              + (fuel - tk.data.length - 1 - (joinWith sepStr (tk2 :: rest2)).data.length))
            (joinWith sepStr (tk2 :: rest2)).data
          = (tk2 :: rest2).map (fun x => x.data) :=
        ih (List.cons_ne_nil _ _)
          (fun x hx => hc x (List.mem_cons_of_mem _ hx)) _ (by omega)
      have hres := splitCharsAux_block sep tk.data
        (sep :: (joinWith sepStr (tk2 :: rest2)).data) fuel []
        ((tk2 :: rest2).map (fun x => x.data))
        (by simp only [List.length_append, List.length_cons]; omega)
        (hc tk (List.mem_cons_self _ _))
        (by rw [hg, splitCharsAux_sep_head, hrec])
      simpa using hres

/-- `pySplit` inverts `joinWith` for a one-character separator absent from
every token. -/
theorem pySplit_joinWith (sepStr : String) (sep : Char) (hsep : sepStr.data = [sep])
    (toks : List String) (hne : toks ≠ [])
    (hc : ∀ tk ∈ toks, ∀ c ∈ tk.data, c ≠ sep) :
    pySplit (joinWith sepStr toks) sepStr = toks := by
  unfold pySplit
  rw [hsep]
  rw [splitCharsAux_joinWith sep sepStr hsep toks hne hc _ le_rfl]
  rw [List.map_map]
  rw [List.map_congr_left (fun tk _ => rfl : ∀ tk ∈ toks, (charsStr ∘ fun t => t.data) tk = id tk)]
  exact List.map_id toks

/-! ## Run endpoints and per-token expansion of rendered runs -/

/-- Every run endpoint the scanning loop emits is drawn from the loop's
input values. -/
theorem compactLoop_mem (first last : Int) (full : List Int) :
    ∀ (todo : List Int) (prev seqStart : Int) (out : List (Int × Int)),
      (∀ x ∈ todo, x ∈ full) → prev ∈ full → seqStart ∈ full →
      (∀ p ∈ out, p.1 ∈ full ∧ p.2 ∈ full) →
      ∀ p ∈ compactLoop first last todo prev seqStart out, p.1 ∈ full ∧ p.2 ∈ full := by
  intro todo
  induction todo with
  | nil =>
    intro prev seqStart out _ _ _ hout p hp
    rw [compactLoop] at hp
    exact hout p hp
  | cons num rest ih =>
    intro prev seqStart out htodo hprev hseq hout p hp
    have hnum : num ∈ full := htodo num (List.mem_cons_self _ _)
    have hrest : ∀ x ∈ rest, x ∈ full := fun x hx => htodo x (List.mem_cons_of_mem _ hx)
    rw [compactLoop] at hp
    by_cases h1 : num ≠ first ∧ num - prev ≠ 1
    · rw [if_pos h1] at hp
      by_cases h2 : num = last
      · rw [if_pos h2] at hp
        refine ih num num _ hrest hnum hnum ?_ p hp
        intro q hq
        simp only [List.mem_append, List.mem_singleton] at hq
        rcases hq with (hq | hq) | hq
        · exact hout q hq
        · rw [hq]; exact ⟨hseq, hprev⟩
        · rw [hq]; exact ⟨hnum, hnum⟩
      · rw [if_neg h2] at hp
        refine ih num num _ hrest hnum hnum ?_ p hp
        intro q hq
        rcases List.mem_append.mp hq with hq | hq
        · exact hout q hq
        · rw [List.mem_singleton.mp hq]; exact ⟨hseq, hprev⟩
    · rw [if_neg h1] at hp
      by_cases h2 : num = last
      · rw [if_pos h2] at hp
        refine ih num seqStart _ hrest hnum hseq ?_ p hp
        intro q hq
        rcases List.mem_append.mp hq with hq | hq
        · exact hout q hq
        · rw [List.mem_singleton.mp hq]; exact ⟨hseq, hnum⟩
      · rw [if_neg h2] at hp
        exact ih num seqStart out hrest hnum hseq hout p hp

/-- Every emitted run's endpoints belong to the input suffix list. -/
theorem compactRuns_mem (l : List Int) (p : Int × Int) (hp : p ∈ compactRuns l) :
    p.1 ∈ l ∧ p.2 ∈ l := by
  cases l with
  | nil => rw [compactRuns] at hp; exact absurd hp (List.not_mem_nil p)
  | cons x xs =>
    rw [compactRuns] at hp
    exact compactLoop_mem x (xs.getLastD x) (x :: xs) (x :: xs) x x []
      (fun y hy => hy) (List.mem_cons_self _ _) (List.mem_cons_self _ _)
      (fun q hq => absurd hq (List.not_mem_nil q)) p hp

/-- The characters of a rendered run over `Nat`-valued endpoints come from
the prefix, the dash, or decimal digits. -/
theorem renderRun_chars (lead : String) (a b : Nat) (c : Char)
    (hc : c ∈ (renderRun lead ((a : Int), (b : Int))).data) :
    c ∈ lead.data ∨ c = '-' ∨ ∃ k, k < 10 ∧ c = Nat.digitChar k := by
  rw [renderRun] at hc
  by_cases hab : ((a : Int), (b : Int)).1 = ((a : Int), (b : Int)).2
  · rw [if_pos hab] at hc
    have h2 : c ∈ lead.data ++ (toString a).data := hc
    rcases List.mem_append.mp h2 with h | h
    · exact Or.inl h
    · exact Or.inr (Or.inr (toString_nat_mem a c h))
  · rw [if_neg hab] at hc
    have h2 : c ∈ ((lead.data ++ (toString a).data) ++ ['-']) ++ (toString b).data := hc
    rcases List.mem_append.mp h2 with h | h
    · rcases List.mem_append.mp h with h3 | h3
      · rcases List.mem_append.mp h3 with h4 | h4
        · exact Or.inl h4
        · exact Or.inr (Or.inr (toString_nat_mem a c h4))
      · rw [List.mem_singleton] at h3
        exact Or.inr (Or.inl h3)
    · exact Or.inr (Or.inr (toString_nat_mem b c h))

theorem flatMap_congr_mem {α β : Type} (l : List α) (f g : α → List β)
    (h : ∀ x ∈ l, f x = g x) : l.flatMap f = l.flatMap g := by
  induction l with
  | nil => rfl
  | cons x xs ih =>
    simp only [List.flatMap_cons, h x (List.mem_cons_self _ _),
      ih (fun y hy => h y (List.mem_cons_of_mem _ hy))]

/-- The claim-side expansion of a token rendered from a `Nat`-valued run
recovers exactly the designators of that run. -/
theorem expandTokenStr_renderRun (lead : String) (a b : Nat) :
    expandTokenStr lead (renderRun lead ((a : Int), (b : Int)))
      = (expandRun ((a : Int), (b : Int))).map (fun k : Int => lead ++ toString k) := by
  by_cases hab : a = b
  · subst hab
    have htok : renderRun lead ((a : Int), (a : Int)) = lead ++ toString (a : Int) := by
      rw [renderRun, if_pos rfl]
    rw [htok]
    have hdata : (lead ++ toString (a : Int)).data = lead.data ++ (toString a).data := rfl
    simp only [expandTokenStr, hdata]
    rw [if_pos (startsWithChars_append_self lead.data (toString a).data)]
    rw [List.drop_left]
    have hcs : charsStr (toString a).data = toString a := rfl
    rw [hcs]
    have hsplit : pySplit (toString a) "-" = [toString a] := by
      have h1 := pySplit_joinWith "-" '-' rfl [toString a] (by simp)
        (by
          intro tk htk c hc
          rw [List.mem_singleton] at htk
          subst htk
          obtain ⟨k, hk, hck⟩ := toString_nat_mem a c hc
          rw [hck]
          exact digitChar_ne_dash k hk)
      exact h1
    rw [hsplit, expandRun_refl]
    rfl
  · have htok : renderRun lead ((a : Int), (b : Int))
        = lead ++ toString (a : Int) ++ "-" ++ toString (b : Int) := by
      rw [renderRun, if_neg (fun h => hab (Int.natCast_inj.mp h))]
    rw [htok]
    have hdata : (lead ++ toString (a : Int) ++ "-" ++ toString (b : Int)).data
        = lead.data ++ ((toString a).data ++ '-' :: (toString b).data) := by
      show ((lead.data ++ (toString a).data) ++ ['-']) ++ (toString b).data = _
      simp [List.append_assoc]
    simp only [expandTokenStr, hdata]
    rw [if_pos (startsWithChars_append_self lead.data _)]
    rw [List.drop_left]
    have hrest : charsStr ((toString a).data ++ '-' :: (toString b).data)
        = joinWith "-" [toString a, toString b] := by
      have h1 : (toString a).data ++ '-' :: (toString b).data
          = (joinWith "-" [toString a, toString b]).data := by
        show _ = ((toString a).data ++ ['-']) ++ (toString b).data
        simp [List.append_assoc]
      rw [h1]
      rfl
    rw [hrest]
    have hsplit : pySplit (joinWith "-" [toString a, toString b]) "-"
        = [toString a, toString b] := by
      apply pySplit_joinWith "-" '-' rfl _ (by simp)
      intro tk htk c hc
      rcases List.mem_cons.mp htk with h1 | h1
      · subst h1
        obtain ⟨k, hk, hck⟩ := toString_nat_mem a c hc
        rw [hck]
        exact digitChar_ne_dash k hk
      · rw [List.mem_singleton] at h1
        subst h1
        obtain ⟨k, hk, hck⟩ := toString_nat_mem b c hc
        rw [hck]
        exact digitChar_ne_dash k hk
    rw [hsplit]
    simp only [pyInt?_natToString]

/-- C2 (amended): for every non-empty, duplicate-free set of designators
of the canonical form `lead ++ n` (a shared non-empty alphabetic prefix
followed by the unpadded decimal numeral of `n : Nat`) whose space-joined
string does not contain `UA1` as a substring (so the general algorithm,
not the hard-coded override, runs — see `refCompactor_ua1_roundtrip_cex`
for both restrictions), the pipeline's compacted display string exists,
and expanding it — splitting on spaces and expanding each rendered
`lead++a-b` range token back into `lead++a, …, lead++b` — reproduces
exactly the original designator set, independent of the input order. -/
theorem refCompactor_roundtrip (lead : String) (l : List Nat)
    (hnd : l.Nodup) (hne : l ≠ [])
    (hlead : lead.data ≠ []) (halpha : ∀ c ∈ lead.data, c.isAlpha = true)
    (hua : hasSubstr (joinWith " " (l.map (fun n => lead ++ toString n))) "UA1" = false) :
    ∃ out : String,
      displayOf (l.map (fun n => lead ++ toString n)) = some out ∧
      (expandDisplay lead out).toFinset
        = (l.map (fun n => lead ++ toString n)).toFinset := by
  obtain ⟨o, os, ho⟩ := List.exists_cons_of_ne_nil hlead
  obtain ⟨n0, l2, hl⟩ := List.exists_cons_of_ne_nil hne
  obtain ⟨d0, ds0, hd0⟩ := List.exists_cons_of_ne_nil (toString_nat_ne_nil n0)
  obtain ⟨k0, hk0, hdk0⟩ := toString_nat_mem n0 d0 (by rw [hd0]; exact List.mem_cons_self _ _)
  have hsdata : ∃ tail, (joinWith " " (l.map (fun n => lead ++ toString n))).data
      = lead.data ++ ((toString n0).data ++ tail) := by
    rw [hl]
    cases l2 with
    | nil =>
      refine ⟨[], ?_⟩
      show (lead ++ toString n0).data = _
      simp
    | cons m t =>
      refine ⟨' ' :: (joinWith " " ((m :: t).map (fun n => lead ++ toString n))).data, ?_⟩
      show ((lead ++ toString n0) ++ " "
          ++ joinWith " " ((m :: t).map (fun n => lead ++ toString n))).data = _
      show ((lead.data ++ (toString n0).data) ++ [' ']) ++ _ = _
      simp [List.append_assoc]
  obtain ⟨tail, htail⟩ := hsdata
  have htake : (joinWith " " (l.map (fun n => lead ++ toString n))).data.takeWhile Char.isAlpha
      = lead.data := by
    rw [htail, takeWhile_append_all Char.isAlpha lead.data _ halpha, hd0]
    rw [List.cons_append, List.takeWhile_cons]
    rw [if_neg (by rw [hdk0, digitChar_not_alpha k0 hk0]; simp)]
    exact List.append_nil _
  have hdrop : (joinWith " " (l.map (fun n => lead ++ toString n))).data.drop lead.data.length
      = (toString n0).data ++ tail := by
    rw [htail, List.drop_left]
  have hrepl : pyReplace (joinWith " " (l.map (fun n => lead ++ toString n))) lead ""
      = joinWith " " (l.map (fun n => toString n)) := by
    show charsStr (replaceCharsAux lead.data []
        (joinWith " " (l.map (fun n => lead ++ toString n))).data.length
        (joinWith " " (l.map (fun n => lead ++ toString n))).data) = _
    rw [replace_strip_lead lead o os ho halpha l hne _ le_rfl]
    rfl
  have hsplit1 : pySplit (joinWith " " (l.map (fun n => toString n))) " "
      = l.map (fun n => toString n) := by
    apply pySplit_joinWith " " ' ' rfl _ (by rw [hl]; simp)
    intro tk htk c hc
    rw [List.mem_map] at htk
    obtain ⟨n, -, htk⟩ := htk
    subst htk
    obtain ⟨k, hk, hck⟩ := toString_nat_mem n c hc
    rw [hck]
    exact digitChar_ne_space k hk
  have hnodup : (l.map (fun n : Nat => (n : Int))).Nodup :=
    hnd.map (fun x y hxy => Int.natCast_inj.mp hxy)
  have hperm : (sortInts (l.map (fun n : Nat => (n : Int)))).Perm
      (l.map (fun n : Nat => (n : Int))) := List.perm_insertionSort _ _
  have hnd2 : (sortInts (l.map (fun n : Nat => (n : Int)))).Nodup := hperm.symm.nodup hnodup
  have hlt : (sortInts (l.map (fun n : Nat => (n : Int)))).Sorted (· < ·) :=
    (List.sorted_insertionSort _ _).lt_of_le hnd2
  have hne2 : sortInts (l.map (fun n : Nat => (n : Int))) ≠ [] := by
    intro h
    have hlen := hperm.length_eq
    rw [h, hl] at hlen
    simp at hlen
  have hrt : (compactRuns (sortInts (l.map (fun n : Nat => (n : Int))))).flatMap expandRun
      = sortInts (l.map (fun n : Nat => (n : Int))) :=
    compactRuns_roundtrip_sorted _ hlt hne2
  have hrne : compactRuns (sortInts (l.map (fun n : Nat => (n : Int)))) ≠ [] := by
    intro h
    rw [h, List.flatMap_nil] at hrt
    exact hne2 hrt.symm
  have hrunNat : ∀ p ∈ compactRuns (sortInts (l.map (fun n : Nat => (n : Int)))),
      ∃ x y : Nat, p = ((x : Int), (y : Int)) := by
    intro p hp
    obtain ⟨h1, h2⟩ := compactRuns_mem _ p hp
    have h1b : p.1 ∈ l.map (fun n : Nat => (n : Int)) := hperm.subset h1
    have h2b : p.2 ∈ l.map (fun n : Nat => (n : Int)) := hperm.subset h2
    rw [List.mem_map] at h1b h2b
    obtain ⟨x, -, hx⟩ := h1b
    obtain ⟨y, -, hy⟩ := h2b
    exact ⟨x, y, Prod.ext hx.symm hy.symm⟩
  have hdisp : displayOf (l.map (fun n => lead ++ toString n))
      = some (joinWith " "
          ((compactRuns (sortInts (l.map (fun n : Nat => (n : Int))))).map (renderRun lead))) := by
    unfold displayOf refsToDisplay
    rw [if_neg (by rw [hua]; exact Bool.false_ne_true)]
    simp only [generalCompact]
    rw [htake]
    have hcs : charsStr lead.data = lead := rfl
    rw [hcs, if_neg hlead, hdrop, hd0]
    simp only [List.cons_append, List.head?_cons]
    rw [if_pos (by rw [hdk0]; exact digitChar_isDigit k0 hk0)]
    rw [hrepl, hsplit1, mapM_pyInt_toString l]
    rw [hl]
    simp only [List.map_cons]
  have hexp : (expandDisplay lead (joinWith " "
        ((compactRuns (sortInts (l.map (fun n : Nat => (n : Int))))).map
          (renderRun lead)))).toFinset
      = (l.map (fun n => lead ++ toString n)).toFinset := by
    unfold expandDisplay
    have htne : (compactRuns (sortInts (l.map (fun n : Nat => (n : Int))))).map
        (renderRun lead) ≠ [] := by
      intro h
      apply hrne
      have h2 := congrArg List.length h
      rw [List.length_map] at h2
      exact List.length_eq_zero.mp h2
    have htch : ∀ tk ∈ (compactRuns (sortInts (l.map (fun n : Nat => (n : Int))))).map
        (renderRun lead), ∀ c ∈ tk.data, c ≠ ' ' := by
      intro tk htk c hc
      rw [List.mem_map] at htk
      obtain ⟨p, hp, rfl⟩ := htk
      obtain ⟨x, y, hxy⟩ := hrunNat p hp
      rw [hxy] at hc
      rcases renderRun_chars lead x y c hc with h | h | ⟨k, hk, hck⟩
      · exact isAlpha_ne_space c (halpha c h)
      · rw [h]; decide
      · rw [hck]; exact digitChar_ne_space k hk
    rw [pySplit_joinWith " " ' ' rfl _ htne htch]
    rw [List.flatMap_map]
    rw [flatMap_congr_mem _ _ (fun p => (expandRun p).map (fun k : Int => lead ++ toString k))
      (by
        intro p hp
        obtain ⟨x, y, hxy⟩ := hrunNat p hp
        rw [hxy]
        exact expandTokenStr_renderRun lead x y)]
    rw [← List.map_flatMap, hrt]
    apply List.toFinset_eq_of_perm
    have h1 := hperm.map (fun k : Int => lead ++ toString k)
    rw [List.map_map] at h1
    rw [List.map_congr_left
      (fun n _ => rfl :
        ∀ n ∈ l, ((fun k : Int => lead ++ toString k) ∘ fun n : Nat => (n : Int)) n
          = lead ++ toString n)] at h1
    exact h1
  exact ⟨_, hdisp, hexp⟩

/-- Witness for `refCompactor_roundtrip` at the concrete designator set
`{C3, C1, C2}` (prefix `C`, suffixes out of order). -/
theorem refCompactor_roundtrip_witness :
    (([3, 1, 2] : List Nat).Nodup ∧ ([3, 1, 2] : List Nat) ≠ [] ∧
        ("C" : String).data ≠ [] ∧ (∀ c ∈ ("C" : String).data, c.isAlpha = true) ∧
        hasSubstr (joinWith " " (([3, 1, 2] : List Nat).map (fun n => "C" ++ toString n)))
          "UA1" = false) ∧
      ∃ out : String,
        displayOf (([3, 1, 2] : List Nat).map (fun n => "C" ++ toString n)) = some out ∧
        (expandDisplay "C" out).toFinset
          = (([3, 1, 2] : List Nat).map (fun n => "C" ++ toString n)).toFinset :=
  ⟨⟨by decide, by decide, by decide, by decide, by decide⟩,
    refCompactor_roundtrip "C" [3, 1, 2] (by decide) (by decide) (by decide) (by decide)
      (by decide)⟩

/-- C2 (counterexample, both restrictions): the designator set `{UA1}`
shares the alphabetic prefix `UA`, but its compacted display is the
hard-coded override label `UA1-UF1`, whose expansion does not reproduce
`{UA1}`; and the designator `C01` (prefix `C`, zero-padded numeral)
compacts to the display `C1`, whose expansion does not reproduce `{C01}`
either — `int()`/`str()` normalize away leading zeros. -/
theorem refCompactor_ua1_roundtrip_cex :
    (displayOf ["UA1"] = some "UA1-UF1" ∧
        (expandDisplay "UA" "UA1-UF1").toFinset ≠ (["UA1"] : List String).toFinset) ∧
      (displayOf ["C01"] = some "C1" ∧
        (expandDisplay "C" "C1").toFinset ≠ (["C01"] : List String).toFinset) :=
  ⟨⟨rfl, by decide⟩, ⟨rfl, by decide⟩⟩

/-- C3 (amended): the override label is selected exactly by the Python
substring test `'UA1' in b.refs` on the space-joined designator string —
not by equality with a fixed designator set; in every other case the
general range-compaction algorithm runs. -/
theorem refCompactor_override_condition (s : String) :
    (hasSubstr s "UA1" = true → refsToDisplay s = some "UA1-UF1") ∧
    (hasSubstr s "UA1" = false → refsToDisplay s = generalCompact s) := by
  constructor <;> intro h <;> simp [refsToDisplay, h]

/-- Witness for `refCompactor_override_condition` at `UA1 UA2`. -/
theorem refCompactor_override_condition_witness :
    hasSubstr "UA1 UA2" "UA1" = true ∧ refsToDisplay "UA1 UA2" = some "UA1-UF1" :=
  ⟨by decide, (refCompactor_override_condition "UA1 UA2").1 (by decide)⟩

/-- C3 (counterexample): the override label is applied both to the
designator set `{UA1}` and to the different set `{UA1, UA2}`, so there is
no single fixed designator set whose exact match characterises the
override. -/
theorem refCompactor_override_not_exact_set_cex :
    displayOf ["UA1"] = some "UA1-UF1" ∧
    displayOf ["UA1", "UA2"] = some "UA1-UF1" ∧
    ¬ ∃ O : Finset String,
        ∀ refs : List String, displayOf refs = some "UA1-UF1" ↔ refs.toFinset = O := by
  refine ⟨by decide, by decide, ?_⟩
  rintro ⟨O, hO⟩
  have h1 : (["UA1"] : List String).toFinset = O := (hO ["UA1"]).mp (by decide)
  have h2 : (["UA1", "UA2"] : List String).toFinset = O := (hO ["UA1", "UA2"]).mp (by decide)
  rw [← h2] at h1
  exact absurd h1 (by decide)

/-! ## BomAggregator invariants -/

theorem placedWithSymbol_append_one (p : List Comp) (c : Comp) (s : String) :
    placedWithSymbol (p ++ [c]) s
      = placedWithSymbol p s + (if isPlacedSub c && c.symbol == s then 1 else 0) := by
  unfold placedWithSymbol
  rw [List.filter_append, List.length_append]
  congr 1
  by_cases h : (isPlacedSub c && c.symbol == s) = true <;>
    simp [List.filter_cons, h]

theorem sum_qty_map_update (bom : List BOMline) (c : Comp) :
    ((bom.map (fun l =>
        if l.symbol == c.symbol then
          { l with qty := l.qty + 1, refs := l.refs ++ " " ++ c.ref }
        else l)).map (fun b => b.qty)).sum
      = (bom.map (fun b => b.qty)).sum
          + ((bom.filter (fun l => l.symbol == c.symbol)).length : Int) := by
  induction bom with
  | nil => simp
  | cons b rest ih =>
    simp only [List.map_cons, List.sum_cons, List.filter_cons]
    by_cases h : b.symbol = c.symbol
    · rw [if_pos (show (b.symbol == c.symbol) = true by simp [h]),
        if_pos (show (b.symbol == c.symbol) = true by simp [h]), ih]
      have hq : ({ b with
          qty := b.qty + 1,
          refs := b.refs ++ " " ++ c.ref } : BOMline).qty = b.qty + 1 := rfl
      rw [hq, List.length_cons]
      push_cast
      ring
    · rw [if_neg (show ¬ (b.symbol == c.symbol) = true by simp [h]),
        if_neg (show ¬ (b.symbol == c.symbol) = true by simp [h]), ih]
      ring

theorem filter_symbol_length_le_one (bom : List BOMline) (s : String)
    (h : (bom.map (fun b => b.symbol)).Nodup) :
    (bom.filter (fun l => l.symbol == s)).length ≤ 1 := by
  induction bom with
  | nil => simp
  | cons b rest ih =>
    rw [List.map_cons, List.nodup_cons] at h
    by_cases hb : b.symbol = s
    · have hrest : rest.filter (fun l => l.symbol == s) = [] := by
        rw [List.filter_eq_nil_iff]
        intro l hl
        simp only [beq_iff_eq]
        intro hls
        exact h.1 (List.mem_map.mpr ⟨l, hl, by rw [hls, hb]⟩)
      simp [List.filter_cons, hb, hrest]
    · simp [List.filter_cons, hb, ih h.2]

theorem one_le_filter_length_of_any (bom : List BOMline) (s : String)
    (h : bom.any (fun l => l.symbol == s) = true) :
    1 ≤ (bom.filter (fun l => l.symbol == s)).length := by
  obtain ⟨l, hl, hls⟩ := List.any_eq_true.mp h
  exact List.length_pos_of_mem (List.mem_filter.mpr ⟨hl, hls⟩)

theorem addComp_step (processed : List Comp) (bom : List BOMline) (c : Comp)
    (h1 : (bom.map (fun b => b.symbol)).Nodup)
    (h2 : ∀ b ∈ bom, b.qty = (placedWithSymbol processed b.symbol : Int))
    (h3 : (bom.map (fun b => b.qty)).sum = ((processed.filter isPlacedSub).length : Int))
    (h4 : ∀ x ∈ processed, isPlacedSub x = true → x.symbol ∈ bom.map (fun b => b.symbol)) :
    ((addComp bom c).map (fun b => b.symbol)).Nodup ∧
    (∀ b ∈ addComp bom c, b.qty = (placedWithSymbol (processed ++ [c]) b.symbol : Int)) ∧
    (((addComp bom c).map (fun b => b.qty)).sum
        = (((processed ++ [c]).filter isPlacedSub).length : Int)) ∧
    (∀ x ∈ processed ++ [c], isPlacedSub x = true →
        x.symbol ∈ (addComp bom c).map (fun b => b.symbol)) := by
  by_cases hp : isPlacedSub c = true
  · by_cases ha : bom.any (fun l => l.symbol == c.symbol) = true
    · have hbom : addComp bom c = bom.map (fun l =>
          if l.symbol == c.symbol then
            { l with qty := l.qty + 1, refs := l.refs ++ " " ++ c.ref } else l) := by
        unfold addComp
        rw [if_pos hp, if_pos ha]
      have hsym : (addComp bom c).map (fun b => b.symbol) = bom.map (fun b => b.symbol) := by
        rw [hbom, List.map_map]
        apply List.map_congr_left
        intro l _
        by_cases hl : l.symbol = c.symbol <;> simp [hl]
      refine ⟨by rw [hsym]; exact h1, ?_, ?_, ?_⟩
      · intro b hb
        rw [hbom] at hb
        obtain ⟨l, hl, rfl⟩ := List.mem_map.mp hb
        by_cases hls : l.symbol = c.symbol
        · rw [if_pos (by simp [hls])]
          have hq : ({ l with
              qty := l.qty + 1,
              refs := l.refs ++ " " ++ c.ref } : BOMline).qty = l.qty + 1 := rfl
          have hsymEq : ({ l with
              qty := l.qty + 1,
              refs := l.refs ++ " " ++ c.ref } : BOMline).symbol = l.symbol := rfl
          rw [hq, hsymEq, h2 l hl, placedWithSymbol_append_one]
          rw [if_pos (by simp [hp, hls])]
          push_cast
          ring
        · rw [if_neg (by simp [hls])]
          rw [h2 l hl, placedWithSymbol_append_one]
          rw [if_neg (by simp; intro _; exact fun he => hls he.symm)]
          simp
      · rw [hbom, sum_qty_map_update, h3]
        have hcnt : (bom.filter (fun l => l.symbol == c.symbol)).length = 1 :=
          le_antisymm (filter_symbol_length_le_one bom c.symbol h1)
            (one_le_filter_length_of_any bom c.symbol ha)
        rw [hcnt, List.filter_append]
        simp only [List.filter_cons, hp, if_pos, List.filter_nil, List.length_append]
        push_cast
        simp
      · intro x hx hpx
        rw [hsym]
        rcases List.mem_append.mp hx with hx1 | hx2
        · exact h4 x hx1 hpx
        · have hxc : x = c := by simpa using hx2
          subst hxc
          obtain ⟨l, hl, hls⟩ := List.any_eq_true.mp ha
          exact List.mem_map.mpr ⟨l, hl, by simpa using hls⟩
    · have hbom : addComp bom c = bom ++ [newBomLine c] := by
        unfold addComp
        rw [if_pos hp, if_neg ha]
      have hnotin : c.symbol ∉ bom.map (fun b => b.symbol) := by
        intro hmem
        obtain ⟨l, hl, hls⟩ := List.mem_map.mp hmem
        exact ha (List.any_eq_true.mpr ⟨l, hl, by simp [hls]⟩)
      have hzero : placedWithSymbol processed c.symbol = 0 := by
        unfold placedWithSymbol
        rw [List.length_eq_zero, List.filter_eq_nil_iff]
        intro x hx
        simp only [Bool.and_eq_true, beq_iff_eq, not_and]
        intro hpx hxs
        exact hnotin (hxs ▸ h4 x hx hpx)
      refine ⟨?_, ?_, ?_, ?_⟩
      · rw [hbom, List.map_append, List.nodup_append]
        refine ⟨h1, by simp, ?_⟩
        intro a ha1 ha2
        have : a = c.symbol := by
          have : a = (newBomLine c).symbol := by simpa using ha2
          simpa [newBomLine] using this
        subst this
        exact hnotin ha1
      · intro b hb
        rw [hbom] at hb
        rcases List.mem_append.mp hb with hb1 | hb2
        · rw [h2 b hb1, placedWithSymbol_append_one]
          have hne : ¬ (c.symbol = b.symbol) := by
            intro he
            exact hnotin (he ▸ List.mem_map.mpr ⟨b, hb1, rfl⟩)
          rw [if_neg (by simp [hne])]
          simp
        · have hbc : b = newBomLine c := by simpa using hb2
          subst hbc
          have hq : (newBomLine c).qty = 1 := rfl
          have hsymEq : (newBomLine c).symbol = c.symbol := rfl
          rw [hq, hsymEq, placedWithSymbol_append_one, hzero,
            if_pos (by simp [hp])]
          simp
      · rw [hbom, List.map_append, List.sum_append, h3, List.filter_append]
        have hmap : ([newBomLine c].map (fun b => b.qty)).sum = 1 := rfl
        rw [hmap]
        have hflt : List.filter isPlacedSub [c] = [c] := by simp [List.filter_cons, hp]
        rw [hflt, List.length_append]
        push_cast
        simp
      · intro x hx hpx
        rw [hbom, List.map_append]
        rcases List.mem_append.mp hx with hx1 | hx2
        · exact List.mem_append.mpr (Or.inl (h4 x hx1 hpx))
        · have hxc : x = c := by simpa using hx2
          subst hxc
          exact List.mem_append.mpr (Or.inr (by simp [newBomLine]))
  · have hpf : isPlacedSub c = false := by
      revert hp
      cases isPlacedSub c <;> simp
    have hbom : addComp bom c = bom := by
      unfold addComp
      rw [if_neg (by rw [hpf]; simp)]
    refine ⟨by rw [hbom]; exact h1, ?_, ?_, ?_⟩
    · intro b hb
      rw [hbom] at hb
      rw [h2 b hb, placedWithSymbol_append_one, hpf]
      simp
    · rw [hbom, h3, List.filter_append]
      simp [List.filter_cons, hpf]
    · intro x hx hpx
      rw [hbom]
      rcases List.mem_append.mp hx with hx1 | hx2
      · exact h4 x hx1 hpx
      · have hxc : x = c := by simpa using hx2
        subst hxc
        rw [hpf] at hpx
        exact absurd hpx (by simp)

theorem bom_foldl_inv (comps : List Comp) :
    ∀ (processed : List Comp) (bom : List BOMline),
      (bom.map (fun b => b.symbol)).Nodup →
      (∀ b ∈ bom, b.qty = (placedWithSymbol processed b.symbol : Int)) →
      ((bom.map (fun b => b.qty)).sum = ((processed.filter isPlacedSub).length : Int)) →
      (∀ x ∈ processed, isPlacedSub x = true → x.symbol ∈ bom.map (fun b => b.symbol)) →
      (((comps.foldl addComp bom).map (fun b => b.symbol)).Nodup ∧
       (∀ b ∈ comps.foldl addComp bom,
          b.qty = (placedWithSymbol (processed ++ comps) b.symbol : Int)) ∧
       (((comps.foldl addComp bom).map (fun b => b.qty)).sum
          = (((processed ++ comps).filter isPlacedSub).length : Int)) ∧
       (∀ x ∈ processed ++ comps, isPlacedSub x = true →
          x.symbol ∈ (comps.foldl addComp bom).map (fun b => b.symbol))) := by
  induction comps with
  | nil =>
    intro processed bom h1 h2 h3 h4
    simp only [List.foldl_nil, List.append_nil]
    exact ⟨h1, h2, h3, h4⟩
  | cons c rest ih =>
    intro processed bom h1 h2 h3 h4
    obtain ⟨g1, g2, g3, g4⟩ := addComp_step processed bom c h1 h2 h3 h4
    have hmain := ih (processed ++ [c]) (addComp bom c) g1 g2 g3 g4
    have hassoc : (processed ++ [c]) ++ rest = processed ++ c :: rest := by simp
    rw [hassoc] at hmain
    rw [List.foldl_cons]
    exact hmain

/-- C1 (amended): in every aggregated BOM, each line's quantity equals the
number of components merged into it — the components passing the source's
*substring* mount-type test with the line's symbol — and the sum of all
quantities equals the number of components whose mount-type *contains*
`th`, `smt` or `dnp` as a substring (Python `in`, line 1064).  The claim's
original exact-membership reading fails, see
`bom_mount_type_substring_cex`. -/
theorem bom_quantity_invariant (comps : List Comp) :
    (createBom comps).map (fun b => b.qty)
        = (createBom comps).map (fun b => (placedWithSymbol comps b.symbol : Int)) ∧
    ((createBom comps).map (fun b => b.qty)).sum
        = ((comps.filter isPlacedSub).length : Int) := by
  have h := bom_foldl_inv comps [] []
    (by simp) (by simp) (by simp) (by simp)
  simp only [List.nil_append] at h
  unfold createBom
  exact ⟨List.map_congr_left (fun b hb => h.2.1 b hb), h.2.2.1⟩

/-- C1 (counterexample): a component whose mount-type is the string `both`
is not of mount-type `th`, `smt` or `dnp`, yet it produces a BOM line
(`'th' in 'both'` is true in Python), so the total quantity differs from
the count of components with mount-type in that set. -/
theorem bom_mount_type_substring_cex :
    ((createBom [demoBoth]).map (fun b => b.qty)).sum
      ≠ (([demoBoth].filter mountTypeExact).length : Int) := by decide

/-! ## Quantity positivity and the writer filters -/

theorem qty_pos_foldl (comps : List Comp) :
    ∀ bom : List BOMline, (∀ b ∈ bom, 1 ≤ b.qty) →
      ∀ b ∈ comps.foldl addComp bom, 1 ≤ b.qty := by
  induction comps with
  | nil => intro bom h; simpa using h
  | cons c rest ih =>
    intro bom h
    rw [List.foldl_cons]
    apply ih
    intro b hb
    unfold addComp at hb
    by_cases hp : isPlacedSub c = true
    · rw [if_pos hp] at hb
      by_cases ha : bom.any (fun l => l.symbol == c.symbol) = true
      · rw [if_pos ha] at hb
        obtain ⟨l, hl, rfl⟩ := List.mem_map.mp hb
        by_cases hls : (l.symbol == c.symbol) = true
        · rw [if_pos hls]
          have := h l hl
          have hq : ({ l with
              qty := l.qty + 1,
              refs := l.refs ++ " " ++ c.ref } : BOMline).qty = l.qty + 1 := rfl
          rw [hq]
          omega
        · rw [if_neg hls]
          exact h l hl
      · rw [if_neg ha] at hb
        rcases List.mem_append.mp hb with hb1 | hb2
        · exact h b hb1
        · have hbc : b = newBomLine c := by simpa using hb2
          subst hbc
          exact le_refl 1
    · rw [if_neg hp] at hb
      exact h b hb

theorem createBom_qty_pos (comps : List Comp) : ∀ b ∈ createBom comps, 1 ≤ b.qty :=
  qty_pos_foldl comps [] (by simp)

/-- C9: every aggregated BOM line has quantity at least 1 (initialised to 1
and only incremented), so the `qty > 0` filters guarding the Seeed
purchasing CSV (line 1220) and the per-vendor CSV/Markdown rows
(line 1243) never exclude a line: the Seeed CSV contains a row for every
BOM line, and the vendor outputs' row filter degenerates to the supplier
test alone (which is the predicate `vendorCsvLines`/`vendorMdLines`
apply). -/
theorem bom_qty_filters_never_exclude (comps : List Comp) (v : String) :
    ((createBom comps).all (fun b => decide (1 ≤ b.qty))) = true ∧
    seeedRows (createBom comps)
        = "Location,MPN/Seeed SKU,Quantity" :: (createBom comps).map seeedRow ∧
    (createBom comps).filter (fun b => decide (0 < b.qty) && b.s1_name == v)
        = (createBom comps).filter (fun b => b.s1_name == v) := by
  have hpos := createBom_qty_pos comps
  refine ⟨?_, ?_, ?_⟩
  · rw [List.all_eq_true]
    intro b hb
    exact decide_eq_true (hpos b hb)
  · unfold seeedRows
    congr 1
    have : (createBom comps).filter (fun b => decide (0 < b.qty)) = createBom comps := by
      rw [List.filter_eq_self]
      intro b hb
      exact decide_eq_true (by have := hpos b hb; omega)
    rw [this]
  · apply List.filter_congr
    intro b hb
    have h1 : decide (0 < b.qty) = true := decide_eq_true (by have := hpos b hb; omega)
    rw [h1, Bool.true_and]

/-! ## Assembly summary counts -/

theorem assySummaryCounts_fold (bom : List BOMline) :
    ∀ acc : Int × Int,
      bom.foldl (fun acc b => if 0 < b.qty then (acc.1 + b.qty, acc.2 + 1) else acc) acc
        = (acc.1 + ((bom.filter (fun b => decide (0 < b.qty))).map (fun b => b.qty)).sum,
           acc.2 + ((bom.filter (fun b => decide (0 < b.qty))).length : Int)) := by
  induction bom with
  | nil => intro acc; simp
  | cons b rest ih =>
    intro acc
    rw [List.foldl_cons]
    by_cases h : 0 < b.qty
    · rw [if_pos h, ih, List.filter_cons, if_pos (decide_eq_true h)]
      simp only [List.map_cons, List.sum_cons, List.length_cons, Prod.mk.injEq]
      constructor
      · ring
      · push_cast
        ring
    · rw [if_neg h, ih, List.filter_cons,
        if_neg (by simp only [decide_eq_true_eq]; exact h)]

/-- C4 (code evaluation at the failing input): with a single BOM line of
quantity 2 there is 1 distinct part type and 2 placements, but the source
(lines 1275-1276) prints the distinct-type count under the
`Individual Placements per board` label and the placement sum under the
`Number of Parts` label — the two labels are swapped relative to the
values (and to the source's own variable names `place_count` and
`part_count`).  The summary values themselves are computed correctly, as
`assySummaryCounts_fold` shows. -/
theorem assy_summary_labels_swapped :
    assySummaryLines [demoLineQty2]
      = ["Individual Placements per board: 1\n", "Number of Parts: 2\n"] ∧
    (assySummaryCounts [demoLineQty2]).1 = 2 ∧
    (assySummaryCounts [demoLineQty2]).2 = 1 := by
  refine ⟨?_, by decide, by decide⟩
  decide

/-! ## XYRS manifest columns -/

/-- C5 (code evaluation at the failing input): an emitted SMT component
with a manufacturer part number produces a 12-field tab-separated row,
but one with an *empty* manufacturer part number produces 13 fields,
because line 1414 writes two tabs in the empty case while every other
optional field writes a single tab — the extra empty column breaks the
12-column alignment of the manifest. -/
theorem xyrs_mpn_column_count :
    (pySplit (xyrsRow demoWithMpn) "\t").length = 12 ∧
    (pySplit (xyrsRow demoNoMpn) "\t").length = 13 := by decide

/-! ## Missing netlist abort -/

/-- C6 (amended): when the netlist file is absent the stage prints the
two diagnostic lines naming the missing netfile and terminates before any
scanning or writing happens — but through Python `exit()` with no
argument, i.e. with process exit status 0, not a non-zero status; when
the file is present the scan proceeds. -/
theorem netlist_missing_abort_behavior (lines : List String) :
    createComponentListFromNetlist none = Except.error netfileMissingErr ∧
    netfileMissingErr.status = 0 ∧
    (∃ m ∈ netfileMissingErr.messages, hasSubstr m "Netfile" = true) ∧
    createComponentListFromNetlist (some lines) = Except.ok (scanNetlist lines) := by
  refine ⟨rfl, rfl, ?_, rfl⟩
  exact ⟨"\nERROR! Netfile doesn\x27t exist. Did you export it from the schematic?",
    by decide, by decide⟩

/-- C6 (counterexample): the abort taken on a missing netlist carries exit
status 0 — it is not true that the process exits with a non-zero
status. -/
theorem netlist_missing_status_zero_cex :
    createComponentListFromNetlist none = Except.error netfileMissingErr ∧
    ¬ netfileMissingErr.status ≠ 0 :=
  ⟨rfl, by decide⟩

/-! ## Malformed netlist field lines -/

theorem splitCharsAux_of_not_contains (sep : List Char) :
    ∀ (fuel : Nat) (l : List Char), containsChars sep l = false →
      splitCharsAux sep fuel l = [l] := by
  intro fuel
  induction fuel with
  | zero =>
    intro l _
    cases l <;> rfl
  | succ n ih =>
    intro l h
    cases l with
    | nil => rfl
    | cons c rest =>
      rw [containsChars, Bool.or_eq_false_iff] at h
      rw [splitCharsAux, if_neg (by intro hc; rw [h.1] at hc; exact absurd hc.2 (by simp)),
        ih rest h.2]

theorem pySplit_of_not_hasSubstr (s sep : String) (h : hasSubstr s sep = false) :
    pySplit s sep = [s] := by
  unfold pySplit
  unfold hasSubstr at h
  rw [splitCharsAux_of_not_contains sep.data s.data.length s.data h]
  rfl

/-- C7 (amended): inside the components section, a recognised
`(footprint ` marker line whose cleaned value contains no `:` separator
does *not* merely skip the field — the `splitline[1]` access of line 919
raises an uncaught `IndexError` and the whole parse aborts.  (Lines
matching no marker at all are still skipped silently.) -/
theorem netlist_footprint_missing_colon_errors (st : NetScan) (line : String)
    (hflag : st.comp_flag = true)
    (hnc : hasSubstr line "(components" = false)
    (hnl : hasSubstr line "(libparts" = false)
    (hfp : hasSubstr line "(footprint " = true)
    (hcol : hasSubstr (footprintClean line) ":" = false) :
    processNetLine st line = Except.error ScanErr.indexError := by
  have hsplit : pySplit (footprintClean line) ":" = [footprintClean line] :=
    pySplit_of_not_hasSubstr _ _ hcol
  unfold processNetLine
  rw [hnc, hnl]
  simp only [Bool.false_eq_true, if_false, hflag, if_true, hfp]
  have herr : ∀ st2 : NetScan, applyFootprintLine st2 line = Except.error ScanErr.indexError := by
    intro st2
    unfold applyFootprintLine
    rw [hsplit]
  cases hr : hasSubstr line "(ref " <;> cases hv : hasSubstr line "(value " <;>
    simp only [hr, hv, Bool.false_eq_true, if_false, if_true, herr, Except.bind] <;> rfl

/-- Witness for `netlist_footprint_missing_colon_errors` at a concrete
colon-less footprint line. -/
theorem netlist_footprint_missing_colon_errors_witness :
    ({ comp_flag := true } : NetScan).comp_flag = true ∧
    hasSubstr "      (footprint Wickerlib)" "(components" = false ∧
    hasSubstr "      (footprint Wickerlib)" "(libparts" = false ∧
    hasSubstr "      (footprint Wickerlib)" "(footprint " = true ∧
    hasSubstr (footprintClean "      (footprint Wickerlib)") ":" = false ∧
    processNetLine { comp_flag := true } "      (footprint Wickerlib)"
      = Except.error ScanErr.indexError :=
  ⟨rfl, by decide, by decide, by decide, by decide,
   netlist_footprint_missing_colon_errors _ _ rfl (by decide) (by decide)
     (by decide) (by decide)⟩

/-- C7 (counterexample): scanning a concrete netlist whose footprint value
lacks the `library:name` colon aborts with an `IndexError` instead of
skipping the field and continuing. -/
theorem netlist_malformed_footprint_cex :
    scanNetlist demoMalformedNetlist = Except.error ScanErr.indexError := rfl

/-! ## PositionMerger lemmas -/

theorem optionMapM_eq_map {α β : Type} (f : α → Option β) (g : α → β) (l : List α)
    (h : ∀ a ∈ l, f a = some (g a)) : l.mapM f = some (l.map g) := by
  induction l with
  | nil => rfl
  | cons a rest ih =>
    rw [List.mapM_cons, h a (List.mem_cons_self a rest),
      ih (fun b hb => h b (List.mem_cons_of_mem a hb))]
    rfl

theorem posApply_samePartData (d : ℚ × ℚ × ℚ × String) (c : Comp) :
    samePartData (posApply d c) c :=
  ⟨rfl, rfl, rfl, rfl, rfl, rfl, rfl, rfl, rfl, rfl, rfl, rfl, rfl, rfl, rfl⟩

theorem samePartData_refl (c : Comp) : samePartData c c :=
  ⟨rfl, rfl, rfl, rfl, rfl, rfl, rfl, rfl, rfl, rfl, rfl, rfl, rfl, rfl, rfl⟩

theorem samePartData_trans {a b c : Comp}
    (h1 : samePartData a b) (h2 : samePartData b c) : samePartData a c := by
  obtain ⟨a1, a2, a3, a4, a5, a6, a7, a8, a9, a10, a11, a12, a13, a14, a15⟩ := h1
  obtain ⟨b1, b2, b3, b4, b5, b6, b7, b8, b9, b10, b11, b12, b13, b14, b15⟩ := h2
  exact ⟨a1.trans b1, a2.trans b2, a3.trans b3, a4.trans b4, a5.trans b5,
    a6.trans b6, a7.trans b7, a8.trans b8, a9.trans b9, a10.trans b10,
    a11.trans b11, a12.trans b12, a13.trans b13, a14.trans b14, a15.trans b15⟩

theorem stepPos_ref (line : String) (c : Comp) : (stepPos line c).ref = c.ref := by
  unfold stepPos
  by_cases h : matchesLine c.ref line = true
  · rw [if_pos h]
    unfold posUpdate
    cases posLineData? line <;> rfl
  · rw [if_neg h]

theorem stepPos_samePartData (line : String) (c : Comp) :
    samePartData (stepPos line c) c := by
  unfold stepPos
  by_cases h : matchesLine c.ref line = true
  · rw [if_pos h]
    unfold posUpdate
    cases posLineData? line with
    | none => exact samePartData_refl c
    | some d => exact posApply_samePartData d c
  · rw [if_neg h]
    exact samePartData_refl c

theorem applyPosLine_eq_map (comps : List Comp) (line : String)
    (hsafe : lineSafe (comps.map (fun x => x.ref)) line = true) :
    applyPosLine comps line = some (comps.map (stepPos line)) := by
  unfold applyPosLine
  cases hcom : hasSubstr line "#" with
  | true =>
    rw [if_pos rfl]
    have hstep : ∀ c ∈ comps, stepPos line c = c := by
      intro c _
      unfold stepPos
      rw [if_neg (by unfold matchesLine; rw [hcom]; simp)]
    rw [show comps.map (stepPos line) = comps.map (fun x => x) from
      List.map_congr_left hstep, List.map_id']
  | false =>
    rw [if_neg (by simp)]
    unfold lineSafe at hsafe
    rw [hcom] at hsafe
    simp only [Bool.false_or, Bool.and_eq_true] at hsafe
    obtain ⟨hne, hrest⟩ := hsafe
    obtain ⟨t0, ts, hts⟩ : ∃ t0 ts, toksOf line = t0 :: ts := by
      cases ht : toksOf line with
      | nil => rw [ht] at hne; exact absurd hne (by simp)
      | cons a as => exact ⟨a, as, rfl⟩
    apply optionMapM_eq_map
    intro c hc
    rw [hts]
    simp only [List.head?_cons]
    by_cases hct : (c.ref == t0) = true
    · have hcref : c.ref = t0 := by simpa using hct
      have hml : matchesLine c.ref line = true := by
        unfold matchesLine
        rw [hcom, hts]
        simp [hcref]
      have hwf : (posLineData? line).isSome = true := by
        rw [hts] at hrest
        simp only [List.headD_cons] at hrest
        have hmem : t0 ∈ comps.map (fun x => x.ref) :=
          hcref ▸ List.mem_map.mpr ⟨c, hc, rfl⟩
        rw [decide_eq_true hmem] at hrest
        have : wellFormedLine line = true := by simpa using hrest
        exact this
      obtain ⟨d, hd⟩ := Option.isSome_iff_exists.mp hwf
      rw [if_pos hct, hd]
      unfold stepPos
      rw [if_pos hml]
      unfold posUpdate
      rw [hd]
      rfl
    · have hml : matchesLine c.ref line = false := by
        unfold matchesLine
        rw [hts]
        have hnr : ¬ c.ref = t0 := by simpa using hct
        simp only [hcom, List.head?_cons, Bool.not_false, Bool.true_and,
          decide_eq_false_iff_not, Option.some.injEq]
        exact fun h => hnr h.symm
      rw [if_neg hct]
      unfold stepPos
      rw [if_neg (by rw [hml]; simp)]

theorem mergePosLines_eq (lines : List String) :
    ∀ comps : List Comp,
      (∀ line ∈ lines, lineSafe (comps.map (fun x => x.ref)) line = true) →
      mergePosLines comps lines = some (comps.map (applyAllPos lines)) := by
  induction lines with
  | nil =>
    intro comps _
    unfold mergePosLines applyAllPos
    simp
  | cons line rest ih =>
    intro comps hsafe
    unfold mergePosLines at *
    rw [List.foldlM_cons,
      applyPosLine_eq_map comps line (hsafe line (List.mem_cons_self _ _))]
    have hrefs : (comps.map (stepPos line)).map (fun x => x.ref)
        = comps.map (fun x => x.ref) := by
      rw [List.map_map]
      apply List.map_congr_left
      intro c _
      exact stepPos_ref line c
    have hrec := ih (comps.map (stepPos line))
      (by rw [hrefs]; exact fun l hl => hsafe l (List.mem_cons_of_mem _ hl))
    show List.foldlM applyPosLine (comps.map (stepPos line)) rest
        = some (comps.map (applyAllPos (line :: rest)))
    rw [hrec]
    congr 1
    rw [List.map_map]
    apply List.map_congr_left
    intro c _
    rfl

theorem applyAllPos_ref (lines : List String) (c : Comp) :
    (applyAllPos lines c).ref = c.ref := by
  induction lines generalizing c with
  | nil => rfl
  | cons line rest ih =>
    unfold applyAllPos at *
    rw [List.foldl_cons, ih (stepPos line c), stepPos_ref]

theorem applyAllPos_samePartData (lines : List String) (c : Comp) :
    samePartData (applyAllPos lines c) c := by
  induction lines generalizing c with
  | nil => exact samePartData_refl c
  | cons line rest ih =>
    unfold applyAllPos at *
    rw [List.foldl_cons]
    exact samePartData_trans (ih (stepPos line c)) (stepPos_samePartData line c)

theorem applyAllPos_eq_self (lines : List String) (c : Comp)
    (h : ∀ line ∈ lines, matchesLine c.ref line = false) :
    applyAllPos lines c = c := by
  induction lines with
  | nil => rfl
  | cons line rest ih =>
    unfold applyAllPos at *
    rw [List.foldl_cons]
    have h1 : stepPos line c = c := by
      unfold stepPos
      rw [if_neg (by rw [h line (List.mem_cons_self _ _)]; simp)]
    rw [h1]
    exact ih (fun l hl => h l (List.mem_cons_of_mem _ hl))

theorem wellFormed_of_safe_match (refs : List String) (line ref : String)
    (hsafe : lineSafe refs line = true) (hm : matchesLine ref line = true)
    (href : ref ∈ refs) : wellFormedLine line = true := by
  unfold matchesLine at hm
  rw [Bool.and_eq_true] at hm
  obtain ⟨hnc, hhead⟩ := hm
  have hcom : hasSubstr line "#" = false := by simpa using hnc
  have hh : (toksOf line).head? = some ref := by simpa using hhead
  unfold lineSafe at hsafe
  rw [hcom] at hsafe
  simp only [Bool.false_or, Bool.and_eq_true] at hsafe
  obtain ⟨_, hrest⟩ := hsafe
  have hD : (toksOf line).headD "" = ref := by
    cases ht : toksOf line with
    | nil => rw [ht] at hh; exact absurd hh (by simp)
    | cons a as =>
      rw [ht] at hh
      simp only [List.head?_cons, Option.some.injEq] at hh
      rw [List.headD_cons]
      exact hh
  rw [hD, decide_eq_true href] at hrest
  simpa using hrest

theorem posUpdate_override (line : String) (a b : Comp)
    (hab : samePartData a b) (hwf : wellFormedLine line = true) :
    posUpdate line a = posUpdate line b := by
  have hsome : (posLineData? line).isSome = true := hwf
  obtain ⟨d, hd⟩ := Option.isSome_iff_exists.mp hsome
  unfold posUpdate
  rw [hd]
  obtain ⟨h1, h2, h3, h4, h5, h6, h7, h8, h9, h10, h11, h12, h13, h14, h15⟩ := hab
  unfold posApply
  cases a
  cases b
  simp_all

theorem applyAllPos_last_match (lines : List String) (c : Comp) (L : String)
    (hL : (lines.filter (fun line => matchesLine c.ref line)).getLast? = some L)
    (hwf : wellFormedLine L = true) :
    applyAllPos lines c = posUpdate L c := by
  revert hL
  induction lines using List.reverseRecOn with
  | nil => intro hL; exact absurd hL (by simp)
  | append_singleton ls l ih =>
    intro hL
    rw [List.filter_append] at hL
    by_cases hm : matchesLine c.ref l = true
    · have hfl : List.filter (fun line => matchesLine c.ref line) [l] = [l] := by
        simp [List.filter_cons, hm]
      rw [hfl, List.getLast?_concat] at hL
      injection hL with hL
      subst hL
      unfold applyAllPos
      rw [List.foldl_append]
      show stepPos l (applyAllPos ls c) = posUpdate l c
      unfold stepPos
      rw [if_pos (by rw [applyAllPos_ref]; exact hm)]
      exact posUpdate_override l _ c (applyAllPos_samePartData ls c) hwf
    · have hfl : List.filter (fun line => matchesLine c.ref line) [l] = [] := by
        have hmf : matchesLine c.ref l = false := by
          revert hm
          cases matchesLine c.ref l <;> simp
        simp [List.filter_cons, hmf]
      rw [hfl, List.append_nil] at hL
      unfold applyAllPos
      rw [List.foldl_append]
      show stepPos l (applyAllPos ls c) = posUpdate L c
      have hstep : stepPos l (applyAllPos ls c) = applyAllPos ls c := by
        unfold stepPos
        rw [if_neg (by rw [applyAllPos_ref]; exact hm)]
      rw [hstep]
      exact ih hL

/-- C8 (amended): the merge mutates only location, rotation and side, and
only of components whose designator is the first token of a line the
source treats as live — a line containing no `#` *anywhere* (line 1372
skips any line containing `#`, not only lines beginning with it, see
`positionMerger_hash_comment_cex`) — and only when the line is well
formed (a matching malformed line crashes instead of being skipped).
Under those conditions the merge succeeds, components matched by no live
line are returned completely unchanged (locations still empty), and every
component keeps all its non-positional fields. -/
theorem positionMerger_frame (top bottom : List String) (comps : List Comp)
    (hsafe : ∀ line ∈ top ++ bottom, lineSafe (comps.map (fun x => x.ref)) line = true) :
    mergePositions top bottom comps = some (comps.map (applyAllPos (top ++ bottom))) ∧
    (∀ c ∈ comps, (∀ line ∈ top ++ bottom, matchesLine c.ref line = false) →
        applyAllPos (top ++ bottom) c = c) ∧
    (∀ c ∈ comps, samePartData (applyAllPos (top ++ bottom) c) c) := by
  refine ⟨mergePosLines_eq (top ++ bottom) comps hsafe, ?_, ?_⟩
  · intro c _ h
    exact applyAllPos_eq_self (top ++ bottom) c h
  · intro c _
    exact applyAllPos_samePartData (top ++ bottom) c

/-- Witness for `positionMerger_frame` at a one-line top file. -/
theorem positionMerger_frame_witness :
    (∀ line ∈ [demoTopLine] ++ ([] : List String),
        lineSafe ([demoComp].map (fun x => x.ref)) line = true) ∧
    mergePositions [demoTopLine] [] [demoComp]
      = some ([demoComp].map (applyAllPos ([demoTopLine] ++ []))) :=
  ⟨by decide, (positionMerger_frame [demoTopLine] [] [demoComp] (by decide)).1⟩

/-- C8 (counterexample): a position line whose first token matches `R1`
and which does not *begin* with `#` — the spec's definition of a comment —
but carries a `#` in a trailing token is skipped entirely by the source
(`'#' not in line`), leaving the matched component's location, rotation
and side empty instead of setting them. -/
theorem positionMerger_hash_comment_cex :
    mergePositions [demoHashLine] [] [demoComp] = some [demoComp] ∧
    demoComp.xloc = none ∧ demoComp.rot = none ∧ demoComp.side = none ∧
    (toksOf demoHashLine).head? = some demoComp.ref ∧
    startsWithChars [Char.ofNat 35] demoHashLine.data = false := by
  refine ⟨rfl, rfl, rfl, rfl, by decide, by decide⟩

/-- C10: position lines are processed in file order with the bottom file
entirely after the top file, and each matching live line overwrites all
four positional fields, so a component matched by several lines ends with
exactly the values of the *last* matching line; when the bottom file
contains a matching line, that last matching line is the bottom file's
last matching line. -/
theorem positionMerger_last_write_wins (top bottom : List String) (comps : List Comp)
    (c : Comp) (L : String)
    (hsafe : ∀ line ∈ top ++ bottom, lineSafe (comps.map (fun x => x.ref)) line = true)
    (hc : c ∈ comps)
    (hL : ((top ++ bottom).filter (fun line => matchesLine c.ref line)).getLast? = some L) :
    mergePositions top bottom comps = some (comps.map (applyAllPos (top ++ bottom))) ∧
    applyAllPos (top ++ bottom) c = posUpdate L c ∧
    (bottom.filter (fun line => matchesLine c.ref line) ≠ [] →
      ((top ++ bottom).filter (fun line => matchesLine c.ref line)).getLast?
        = (bottom.filter (fun line => matchesLine c.ref line)).getLast?) := by
  have hwf : wellFormedLine L = true := by
    have hmemL : L ∈ (top ++ bottom).filter (fun line => matchesLine c.ref line) :=
      List.mem_of_mem_getLast? (Option.mem_def.mpr hL)
    rw [List.mem_filter] at hmemL
    exact wellFormed_of_safe_match _ L c.ref (hsafe L hmemL.1) hmemL.2
      (List.mem_map.mpr ⟨c, hc, rfl⟩)
  refine ⟨mergePosLines_eq (top ++ bottom) comps hsafe,
    applyAllPos_last_match _ c L hL hwf, ?_⟩
  intro hbne
  rw [List.filter_append, List.getLast?_append]
  cases hbl : (bottom.filter (fun line => matchesLine c.ref line)).getLast? with
  | none =>
    exfalso
    cases hB : bottom.filter (fun line => matchesLine c.ref line) with
    | nil => exact hbne hB
    | cons a as =>
      rw [hB, getLast?_cons_eq_getLastD as a a] at hbl
      exact absurd hbl (by simp)
  | some z => rfl

/-- Witness for `positionMerger_last_write_wins`: `R1` appears in both the
top and the bottom file, and its final values are the bottom line's. -/
theorem positionMerger_last_write_wins_witness :
    (∀ line ∈ [demoTopLine] ++ [demoBottomLine],
        lineSafe ([demoComp].map (fun x => x.ref)) line = true) ∧
    demoComp ∈ [demoComp] ∧
    (([demoTopLine] ++ [demoBottomLine]).filter
        (fun line => matchesLine demoComp.ref line)).getLast? = some demoBottomLine ∧
    applyAllPos ([demoTopLine] ++ [demoBottomLine]) demoComp
      = posUpdate demoBottomLine demoComp :=
  ⟨by decide, by decide, by decide,
   (positionMerger_last_write_wins [demoTopLine] [demoBottomLine] [demoComp] demoComp
      demoBottomLine (by decide) (by decide) (by decide)).2.1⟩

end KiFisher
